import Mathlib

/-!
Verification of `src/main.py`.

The file shallowly embeds the five core functions of the repository:

* `generate_delta_json`        (delta engine, `main.py` lines 125-151)
* `generate_res_patched_config` (patch applier, lines 154-167)
* `generate_meta_json`         (metadata generator, lines 80-122)
* `generate_config_xml`        (tree materializer, lines 56-77)
* `parse_xml`                  (model-graph construction, lines 8-53;
  only its in-memory graph-building part, the ElementTree I/O being an
  external collaborator)

Python dicts are modelled as insertion-ordered association lists
`List (String × V)` (keys of a real dict are unique, which appears as a
`Nodup` hypothesis where a proof needs it).  Fallible operations return
`Except`.  Python's interpreter recursion limit (which turns the cyclic
containment graph of `generate_config_xml` into a raised
`RecursionError` instead of a silent crash) is modelled by an explicit
fuel argument; running out of fuel is the `recursionLimit` error.
-/

set_option maxHeartbeats 1000000
set_option linter.unusedSectionVars false

deriving instance DecidableEq for Except

namespace MainPy

/-! ## Python dict primitives -/

variable {V : Type} [DecidableEq V]

/-- Python `d[k]` / `d.get(k)`: the binding of `k` in an association list
(first binding; in a real dict keys are unique). -/
def lookupKey (l : List (String × V)) (k : String) : Option V :=
  (l.find? (fun p => decide (p.1 = k))).map (fun p => p.2)

/-- Python `k in d`: key membership test. -/
def keyMem (l : List (String × V)) (k : String) : Bool :=
  l.any (fun p => decide (p.1 = k))

/-- Python `d.pop(k, None)`: remove the binding(s) of `k`, a no-op when
`k` is absent. -/
def eraseKey : List (String × V) → String → List (String × V)
  | [], _ => []
  | p :: l, k => if p.1 = k then eraseKey l k else p :: eraseKey l k

/-- Python `d[k] = v`: overwrite in place when `k` is present (keeping its
position, as Python dicts do), otherwise append the new binding. -/
def setKey (l : List (String × V)) (k : String) (v : V) : List (String × V) :=
  if keyMem l k then l.map (fun p => if p.1 = k then (k, v) else p)
  else l ++ [(k, v)]

/-- Value of the last binding of `k` in a list of pairs (used to state
which entry wins when a hand-constructed delta repeats a key). -/
def lastAssoc : List (String × V) → String → Option V
  | [], _ => none
  | p :: l, k =>
    match lastAssoc l k with
    | some v => some v
    | none => if p.1 = k then some p.2 else none

theorem lookupKey_nil (k : String) : lookupKey ([] : List (String × V)) k = none := rfl

theorem lookupKey_cons (p : String × V) (l : List (String × V)) (k : String) :
    lookupKey (p :: l) k = if p.1 = k then some p.2 else lookupKey l k := by
  by_cases h : p.1 = k <;> simp [lookupKey, List.find?_cons, h]

theorem keyMem_nil (k : String) : keyMem ([] : List (String × V)) k = false := rfl

theorem keyMem_cons (p : String × V) (l : List (String × V)) (k : String) :
    keyMem (p :: l) k = (decide (p.1 = k) || keyMem l k) := by
  simp [keyMem, List.any_cons]

theorem keyMem_iff_mem_keys (l : List (String × V)) (k : String) :
    keyMem l k = true ↔ k ∈ l.map Prod.fst := by
  induction l with
  | nil => simp [keyMem]
  | cons p l ih =>
    rw [keyMem_cons]
    by_cases h : p.1 = k <;> simp [h, ih]
    exact fun hk => (h hk.symm).elim

theorem lookupKey_eq_none_iff (l : List (String × V)) (k : String) :
    lookupKey l k = none ↔ keyMem l k = false := by
  induction l with
  | nil => simp [lookupKey, keyMem]
  | cons p l ih =>
    rw [lookupKey_cons, keyMem_cons]
    by_cases h : p.1 = k <;> simp [h, ih]

theorem lookupKey_isSome_iff (l : List (String × V)) (k : String) :
    (lookupKey l k).isSome = keyMem l k := by
  rcases hl : lookupKey l k with _ | v
  · simp [(lookupKey_eq_none_iff l k).mp hl]
  · have : lookupKey l k ≠ none := by simp [hl]
    rcases hk : keyMem l k
    · exact absurd ((lookupKey_eq_none_iff l k).mpr hk) this
    · simp

theorem mem_of_lookupKey_eq_some {l : List (String × V)} {k : String} {v : V}
    (h : lookupKey l k = some v) : (k, v) ∈ l := by
  induction l with
  | nil => simp [lookupKey] at h
  | cons p l ih =>
    rw [lookupKey_cons] at h
    by_cases hp : p.1 = k
    · simp [hp] at h
      rcases p with ⟨a, b⟩
      simp at hp h
      simp [hp, h]
    · simp [hp] at h
      exact List.mem_cons_of_mem _ (ih h)

theorem lookupKey_of_mem_nodup {l : List (String × V)} {k : String} {v : V}
    (hnd : (l.map Prod.fst).Nodup) (h : (k, v) ∈ l) : lookupKey l k = some v := by
  induction l with
  | nil => simp at h
  | cons p l ih =>
    simp only [List.map_cons, List.nodup_cons] at hnd
    rcases List.mem_cons.mp h with h | h
    · rw [← h, lookupKey_cons]
      simp
    · have hk : k ∈ l.map Prod.fst := List.mem_map.mpr ⟨(k, v), h, rfl⟩
      have hp : p.1 ≠ k := fun hc => hnd.1 (hc ▸ hk)
      rw [lookupKey_cons, if_neg hp]
      exact ih hnd.2 h

theorem lastAssoc_eq_lookupKey_of_nodup {l : List (String × V)} (k : String)
    (hnd : (l.map Prod.fst).Nodup) : lastAssoc l k = lookupKey l k := by
  induction l with
  | nil => rfl
  | cons p l ih =>
    simp only [List.map_cons, List.nodup_cons] at hnd
    rw [lookupKey_cons]
    by_cases h : p.1 = k
    · have hk : k ∉ l.map Prod.fst := h ▸ hnd.1
      have : keyMem l k = false := by
        rcases hm : keyMem l k
        · rfl
        · exact absurd ((keyMem_iff_mem_keys l k).mp hm) hk
      have hnone : lookupKey l k = none := (lookupKey_eq_none_iff l k).mpr this
      simp [lastAssoc, ih hnd.2, hnone, h]
    · simp only [lastAssoc, ih hnd.2, if_neg h]
      rcases lookupKey l k with _ | v <;> simp [h]

theorem eraseKey_cons (p : String × V) (l : List (String × V)) (k : String) :
    eraseKey (p :: l) k = if p.1 = k then eraseKey l k else p :: eraseKey l k := rfl

theorem lookupKey_eraseKey (l : List (String × V)) (k k' : String) :
    lookupKey (eraseKey l k) k' = if k' = k then none else lookupKey l k' := by
  induction l with
  | nil => by_cases h : k' = k <;> simp [eraseKey, lookupKey, h]
  | cons p l ih =>
    rw [eraseKey_cons]
    by_cases hp : p.1 = k
    · rw [if_pos hp, ih, lookupKey_cons]
      by_cases h : k' = k
      · simp [h]
      · have hpk : p.1 ≠ k' := by
          rw [hp]
          exact fun hc => h hc.symm
        simp [h, hpk]
    · rw [if_neg hp, lookupKey_cons, lookupKey_cons, ih]
      by_cases hq : p.1 = k'
      · have : k' ≠ k := fun hc => hp (hq.trans hc)
        simp [hq, this]
      · simp [hq]

theorem eraseKey_of_not_mem (l : List (String × V)) (k : String)
    (h : lookupKey l k = none) : eraseKey l k = l := by
  induction l with
  | nil => rfl
  | cons p l ih =>
    rw [lookupKey_cons] at h
    by_cases hp : p.1 = k
    · simp [hp] at h
    · simp [hp] at h
      rw [eraseKey_cons, if_neg hp, ih h]

theorem lookupKey_map_replace_self (l : List (String × V)) (k : String) (v : V)
    (h : keyMem l k = true) :
    lookupKey (l.map (fun p => if p.1 = k then (k, v) else p)) k = some v := by
  induction l with
  | nil => simp [keyMem] at h
  | cons p l ih =>
    rw [keyMem_cons] at h
    by_cases hp : p.1 = k
    · simp only [List.map_cons, if_pos hp, lookupKey_cons]
      simp
    · simp only [List.map_cons, if_neg hp, lookupKey_cons, if_neg hp]
      simp [hp] at h
      exact ih h

theorem lookupKey_map_replace_other (l : List (String × V)) (k : String) (v : V)
    (k' : String) (h : k' ≠ k) :
    lookupKey (l.map (fun p => if p.1 = k then (k, v) else p)) k' = lookupKey l k' := by
  induction l with
  | nil => rfl
  | cons p l ih =>
    by_cases hp : p.1 = k
    · simp only [List.map_cons, if_pos hp, lookupKey_cons]
      have h1 : (k, v).1 ≠ k' := fun hc => h hc.symm
      have h2 : p.1 ≠ k' := fun hc => h ((hc ▸ hp : k' = k))
      rw [if_neg h1, if_neg h2, ih]
    · simp only [List.map_cons, if_neg hp, lookupKey_cons]
      by_cases hq : p.1 = k' <;> simp [hq, ih]

theorem lookupKey_append (l₁ l₂ : List (String × V)) (k : String) :
    lookupKey (l₁ ++ l₂) k =
      match lookupKey l₁ k with
      | some v => some v
      | none => lookupKey l₂ k := by
  induction l₁ with
  | nil => simp [lookupKey_nil]
  | cons p l ih =>
    rw [List.cons_append, lookupKey_cons, lookupKey_cons]
    by_cases hp : p.1 = k <;> simp [hp, ih]

theorem lookupKey_setKey (l : List (String × V)) (k : String) (v : V) (k' : String) :
    lookupKey (setKey l k v) k' = if k' = k then some v else lookupKey l k' := by
  unfold setKey
  by_cases hm : keyMem l k
  · rw [if_pos hm]
    by_cases h : k' = k
    · subst h
      rw [if_pos rfl, lookupKey_map_replace_self l k' v hm]
    · rw [if_neg h, lookupKey_map_replace_other l k v k' h]
  · rw [if_neg hm, lookupKey_append]
    by_cases h : k' = k
    · subst h
      have : lookupKey l k' = none := by
        rw [lookupKey_eq_none_iff]
        exact Bool.eq_false_iff.mpr hm
      simp [this, lookupKey_cons]
    · rw [if_neg h]
      rcases hl : lookupKey l k' with _ | w
      · simp only [hl]
        rw [lookupKey_cons, if_neg (fun hc => h hc.symm)]
        rfl
      · simp [hl]

theorem lookupKey_foldl_eraseKey (ks : List String) (base : List (String × V)) (k : String) :
    lookupKey (ks.foldl (fun r kk => eraseKey r kk) base) k =
      if k ∈ ks then none else lookupKey base k := by
  induction ks generalizing base with
  | nil => simp
  | cons d ds ih =>
    rw [List.foldl_cons, ih, lookupKey_eraseKey]
    by_cases h1 : k ∈ ds <;> by_cases h2 : k = d <;> simp [h1, h2]

theorem lookupKey_foldl_setKey (ps : List (String × V)) (base : List (String × V)) (k : String) :
    lookupKey (ps.foldl (fun r p => setKey r p.1 p.2) base) k =
      match lastAssoc ps k with
      | some v => some v
      | none => lookupKey base k := by
  induction ps generalizing base with
  | nil => simp [lastAssoc]
  | cons p t ih =>
    rw [List.foldl_cons, ih]
    rcases h : lastAssoc t k with _ | v
    · simp only [lastAssoc, h, lookupKey_setKey]
      by_cases hq : p.1 = k
      · simp [hq]
      · have : k ≠ p.1 := fun hc => hq hc.symm
        simp [hq, this]
    · simp [lastAssoc, h]

/-! ## Delta engine and patch applier (`main.py` lines 125-167)

`generate_delta_json` returns (the in-memory form of) the delta object it
serializes; `generate_res_patched_config` consumes a delta structure (the
JSON round-trip `json.loads(json.dumps(delta))` in `main` is the identity
on the structure).  An update entry `{key, from, to}` is modelled as the
triple `(key, from, to)`. -/

theorem lastAssoc_cons (p : String × V) (l : List (String × V)) (k : String) :
    lastAssoc (p :: l) k =
      match lastAssoc l k with
      | some v => some v
      | none => if p.1 = k then some p.2 else none := rfl

theorem lookupKey_filter_keyPred (l : List (String × V)) (q : String → Bool) (k : String) :
    lookupKey (l.filter (fun p => q p.1)) k = if q k then lookupKey l k else none := by
  induction l with
  | nil => simp [lookupKey]
  | cons p t ih =>
    rw [List.filter_cons]
    by_cases hq : q p.1
    · rw [if_pos hq, lookupKey_cons, ih]
      by_cases hk : p.1 = k
      · have hqk : q k = true := hk ▸ hq
        rw [if_pos hk, if_pos hqk, lookupKey_cons, if_pos hk]
      · rw [if_neg hk]
        by_cases hk2 : q k
        · rw [if_pos hk2, if_pos hk2, lookupKey_cons, if_neg hk]
        · rw [if_neg hk2, if_neg hk2]
    · rw [if_neg hq, ih]
      by_cases hk2 : q k
      · have : p.1 ≠ k := fun hc => hq (by rw [hc]; exact hk2)
        rw [if_pos hk2, if_pos hk2, lookupKey_cons, if_neg this]
      · rw [if_neg hk2, if_neg hk2]

theorem nodup_keys_filter (l : List (String × V)) (f : String × V → Bool)
    (h : (l.map Prod.fst).Nodup) : ((l.filter f).map Prod.fst).Nodup :=
  List.Nodup.sublist (List.Sublist.map Prod.fst (List.filter_sublist l)) h

theorem keyMem_eq_true_iff_ne_none (l : List (String × V)) (k : String) :
    keyMem l k = true ↔ lookupKey l k ≠ none := by
  constructor
  · intro h hc
    rw [lookupKey_eq_none_iff, h] at hc
    exact Bool.noConfusion hc
  · intro h
    rcases hm : keyMem l k
    · exact absurd ((lookupKey_eq_none_iff l k).mpr hm) h
    · rfl

theorem lastAssoc_filterMap (ks : List String) (g : String → Option (String × V))
    (hg : ∀ a p, g a = some p → p.1 = a) (hnd : ks.Nodup) (k : String) :
    lastAssoc (ks.filterMap g) k = if k ∈ ks then (g k).map Prod.snd else none := by
  induction ks with
  | nil => simp [lastAssoc]
  | cons a t ih =>
    simp only [List.nodup_cons] at hnd
    rw [List.filterMap_cons]
    rcases hga : g a with _ | p
    · rw [ih hnd.2]
      by_cases hk : k ∈ t
      · rw [if_pos hk, if_pos (List.mem_cons_of_mem a hk)]
      · by_cases hak : k = a
        · subst hak
          rw [if_neg hk, if_pos (List.mem_cons_self k t), hga]
          rfl
        · rw [if_neg hk, if_neg (by simp [hak, hk])]
    · have hpa : p.1 = a := hg a p hga
      rw [lastAssoc_cons, ih hnd.2]
      by_cases hk : k ∈ t
      · have hak : a ≠ k := fun hc => hnd.1 (hc ▸ hk)
        rw [if_pos hk, if_pos (List.mem_cons_of_mem a hk)]
        rcases hgk : g k with _ | q
        · simp [hgk, hpa, hak]
        · simp [hgk]
      · by_cases hak : a = k
        · subst hak
          rw [if_neg hk, if_pos (List.mem_cons_self a t), hga]
          simp [hpa]
        · have hknotin : k ∉ a :: t := by
            simp [hk]
            exact fun hc => hak hc.symm
          rw [if_neg hk, if_neg hknotin]
          simp [hpa, hak]

/-- Delta between two config maps: `additions` (key, value), `deletions`
(keys only), `updates` (key, from, to). -/
structure Delta (V : Type) where
  additions : List (String × V)
  deletions : List String
  updates : List (String × V × V)
deriving DecidableEq

/-- Body of the updates loop of `generate_delta_json` (`main.py` 143-149):
for a key `k` of `config`, the update entry it contributes, if any
(`key in patched_config and config[key] != patched_config[key]`). -/
def updCandidate (config patched : List (String × V)) (k : String) :
    Option (String × V × V) :=
  match lookupKey config k, lookupKey patched k with
  | some v, some w => if v = w then none else some (k, v, w)
  | _, _ => none

/-- `generate_delta_json` (`main.py` 125-151): classify keys of the two
maps into additions / deletions / updates. -/
def generate_delta_json (config patched : List (String × V)) : Delta V :=
  { additions := patched.filter (fun p => !(keyMem config p.1))
  , deletions := (config.map Prod.fst).filter (fun k => !(keyMem patched k))
  , updates := (config.map Prod.fst).filterMap (updCandidate config patched) }

theorem updCandidate_key (config patched : List (String × V)) (k : String)
    (p : String × V × V) (h : updCandidate config patched k = some p) : p.1 = k := by
  unfold updCandidate at h
  rcases hc : lookupKey config k with _ | v <;> rcases hp : lookupKey patched k with _ | w <;>
      simp only [hc, hp] at h
  · exact Option.noConfusion h
  · exact Option.noConfusion h
  · exact Option.noConfusion h
  · by_cases hvw : v = w
    · rw [if_pos hvw] at h
      exact Option.noConfusion h
    · rw [if_neg hvw] at h
      injection h with h2
      rw [← h2]

theorem updCandidate_eq_some_iff (config patched : List (String × V)) (a k : String)
    (u w : V) :
    updCandidate config patched a = some (k, u, w) ↔
      a = k ∧ lookupKey config a = some u ∧ lookupKey patched a = some w ∧ u ≠ w := by
  unfold updCandidate
  rcases hc : lookupKey config a with _ | v <;> rcases hp : lookupKey patched a with _ | x
  · simp [hc, hp]
  · simp [hc, hp]
  · simp [hc, hp]
  · show (if v = x then none else some (a, v, x)) = some (k, u, w) ↔
        a = k ∧ some v = some u ∧ some x = some w ∧ u ≠ w
    by_cases hvx : v = x
    · rw [if_pos hvx]
      constructor
      · intro h
        exact Option.noConfusion h
      · rintro ⟨rfl, h2, h3, h4⟩
        have hv : v = u := Option.some.inj h2
        have hx : x = w := Option.some.inj h3
        exact absurd (hv ▸ hx ▸ hvx) h4
    · rw [if_neg hvx]
      constructor
      · intro h
        have h5 : (a, v, x) = (k, u, w) := Option.some.inj h
        have ha : a = k := congrArg Prod.fst h5
        have hv : v = u := congrArg (fun q => q.2.1) h5
        have hx : x = w := congrArg (fun q => q.2.2) h5
        subst hv
        subst hx
        exact ⟨ha, rfl, rfl, hvx⟩
      · rintro ⟨rfl, h2, h3, h4⟩
        have hv : v = u := Option.some.inj h2
        have hx : x = w := Option.some.inj h3
        subst hv
        subst hx
        rfl

/-- `generate_res_patched_config` (`main.py` 154-167): copy the base map,
remove the deleted keys, write the updates, then write the additions. -/
def generate_res_patched_config (config : List (String × V)) (delta : Delta V) :
    List (String × V) :=
  delta.additions.foldl (fun r a => setKey r a.1 a.2)
    (delta.updates.foldl (fun r u => setKey r u.1 u.2.2)
      (delta.deletions.foldl (fun r k => eraseKey r k) config))

/-- Full behavioural characterization of the patch applier on an arbitrary
(possibly hand-constructed) delta: additions win over updates, which win
over deletions, and within a category the last entry for a key wins. -/
theorem applyPatch_lookup (base : List (String × V)) (d : Delta V) (k : String) :
    lookupKey (generate_res_patched_config base d) k =
      match lastAssoc d.additions k with
      | some v => some v
      | none =>
        match lastAssoc (d.updates.map (fun u => (u.1, u.2.2))) k with
        | some v => some v
        | none => if k ∈ d.deletions then none else lookupKey base k := by
  unfold generate_res_patched_config
  have hupd : ∀ (init : List (String × V)),
      d.updates.foldl (fun r u => setKey r u.1 u.2.2) init =
        (d.updates.map (fun u => (u.1, u.2.2))).foldl (fun r p => setKey r p.1 p.2) init := by
    intro init
    rw [List.foldl_map]
  rw [hupd, lookupKey_foldl_setKey, lookupKey_foldl_setKey, lookupKey_foldl_eraseKey]

theorem roundTrip_lookup (A B : List (String × V))
    (hA : (A.map Prod.fst).Nodup) (hB : (B.map Prod.fst).Nodup) (k : String) :
    lookupKey (generate_res_patched_config A (generate_delta_json A B)) k = lookupKey B k := by
  have hAdd : lastAssoc (generate_delta_json A B).additions k =
      if keyMem A k = true then none else lookupKey B k := by
    have h1 : lookupKey (B.filter (fun p => !(keyMem A p.1))) k =
        if (!(keyMem A k)) = true then lookupKey B k else none :=
      lookupKey_filter_keyPred B (fun s => !(keyMem A s)) k
    show lastAssoc (B.filter (fun p => !(keyMem A p.1))) k = _
    rw [lastAssoc_eq_lookupKey_of_nodup k (nodup_keys_filter B _ hB), h1]
    by_cases h : keyMem A k <;> simp [h]
  have hUpd : lastAssoc ((generate_delta_json A B).updates.map (fun u => (u.1, u.2.2))) k =
      if k ∈ A.map Prod.fst then
        ((updCandidate A B k).map (fun u => (u.1, u.2.2))).map Prod.snd
      else none := by
    show lastAssoc (((A.map Prod.fst).filterMap (updCandidate A B)).map
        (fun u => (u.1, u.2.2))) k = _
    rw [List.map_filterMap]
    exact lastAssoc_filterMap (A.map Prod.fst)
      (fun a => (updCandidate A B a).map (fun u => (u.1, u.2.2)))
      (fun a p h => by
        rcases Option.map_eq_some'.mp h with ⟨x, hx, hfx⟩
        rw [← hfx]
        exact updCandidate_key A B a x hx) hA k
  rw [applyPatch_lookup, hAdd, hUpd]
  rcases hA2 : lookupKey A k with _ | v <;> rcases hB2 : lookupKey B k with _ | w
  · have hm : keyMem A k = false := by
      have := lookupKey_isSome_iff A k
      rw [hA2] at this
      exact this.symm
    have hnotmem : k ∉ A.map Prod.fst := fun hc => by
      rw [← keyMem_iff_mem_keys] at hc
      rw [hm] at hc
      exact Bool.noConfusion hc
    have hkdel : k ∉ (generate_delta_json A B).deletions := fun hc =>
      hnotmem (List.mem_of_mem_filter hc)
    simp [hm, hB2, hnotmem, hkdel, hA2]
  · have hm : keyMem A k = false := by
      have := lookupKey_isSome_iff A k
      rw [hA2] at this
      exact this.symm
    simp [hm, hB2]
  · have hm : keyMem A k = true := by
      have := lookupKey_isSome_iff A k
      rw [hA2] at this
      exact this.symm
    have hmem : k ∈ A.map Prod.fst := (keyMem_iff_mem_keys A k).mp hm
    have hmB : keyMem B k = false := by
      have := lookupKey_isSome_iff B k
      rw [hB2] at this
      exact this.symm
    have hcand : updCandidate A B k = none := by
      unfold updCandidate
      rw [hA2, hB2]
    have hkdel : k ∈ (generate_delta_json A B).deletions := by
      show k ∈ (A.map Prod.fst).filter (fun s => !(keyMem B s))
      exact List.mem_filter.mpr ⟨hmem, by simp [hmB]⟩
    simp [hm, hmem, hcand, hkdel]
  · have hm : keyMem A k = true := by
      have := lookupKey_isSome_iff A k
      rw [hA2] at this
      exact this.symm
    have hmem : k ∈ A.map Prod.fst := (keyMem_iff_mem_keys A k).mp hm
    have hmB : keyMem B k = true := by
      have := lookupKey_isSome_iff B k
      rw [hB2] at this
      exact this.symm
    have hcand : updCandidate A B k = if v = w then none else some (k, v, w) := by
      unfold updCandidate
      rw [hA2, hB2]
    by_cases hvw : v = w
    · have hkdel : k ∉ (generate_delta_json A B).deletions := fun hc => by
        have h2 := (List.mem_filter.mp hc).2
        simp [hmB] at h2
      subst hvw
      simp [hm, hmem, hcand, hkdel, hA2]
    · simp [hm, hmem, hcand, hvw]

/-- C1: for all config maps `A`, `B` (unique keys, as Python dicts have),
applying the computed delta `generate_delta_json A B` to `A` with
`generate_res_patched_config` yields a map structurally equal to `B`
(same value at every key, hence the same key set); in particular with
`B = A` the round trip is a no-op, yielding a map structurally equal
to `A`. -/
theorem C1_round_trip (A B : List (String × V))
    (hA : (A.map Prod.fst).Nodup) (hB : (B.map Prod.fst).Nodup) :
    (∀ k, lookupKey (generate_res_patched_config A (generate_delta_json A B)) k =
      lookupKey B k)
    ∧ (∀ k, lookupKey (generate_res_patched_config A (generate_delta_json A A)) k =
      lookupKey A k) :=
  ⟨fun k => roundTrip_lookup A B hA hB k, fun k => roundTrip_lookup A A hA hA k⟩

/-- Witness for C1 on the worked example of the spec:
`base = {a:1, b:2}`, `patched = {b:3, c:4}`. -/
theorem C1_witness :
    ((([("a", 1), ("b", 2)] : List (String × Nat)).map Prod.fst).Nodup
      ∧ (([("b", 3), ("c", 4)] : List (String × Nat)).map Prod.fst).Nodup)
    ∧ (∀ k, lookupKey (generate_res_patched_config [("a", 1), ("b", 2)]
        (generate_delta_json [("a", 1), ("b", 2)] [("b", 3), ("c", 4)])) k =
        lookupKey [("b", 3), ("c", 4)] k)
    ∧ (∀ k, lookupKey (generate_res_patched_config [("a", 1), ("b", 2)]
        (generate_delta_json [("a", 1), ("b", 2)] [("a", 1), ("b", 2)])) k =
        lookupKey [("a", 1), ("b", 2)] k) := by
  refine ⟨⟨by decide, by decide⟩, ?_, ?_⟩
  · exact (C1_round_trip [("a", 1), ("b", 2)] [("b", 3), ("c", 4)]
      (by decide) (by decide)).1
  · exact (C1_round_trip [("a", 1), ("b", 2)] [("a", 1), ("b", 2)]
      (by decide) (by decide)).2

/-- C3: `generate_delta_json` classifies keys exactly as: additions are the
keys of `patched` absent from `config`, with their values; deletions the
keys of `config` absent from `patched`, key only; updates the keys present
in both whose values differ, recorded as `(key, from, to)` with
`from = config[key]` and `to = patched[key]`; and a key present in both
with equal values appears in no category. -/
theorem C3_delta_classification (config patched : List (String × V))
    (hc : (config.map Prod.fst).Nodup) (hp : (patched.map Prod.fst).Nodup) :
    (∀ k v, (k, v) ∈ (generate_delta_json config patched).additions ↔
      lookupKey patched k = some v ∧ lookupKey config k = none)
    ∧ (∀ k, k ∈ (generate_delta_json config patched).deletions ↔
      lookupKey config k ≠ none ∧ lookupKey patched k = none)
    ∧ (∀ k u w, (k, u, w) ∈ (generate_delta_json config patched).updates ↔
      lookupKey config k = some u ∧ lookupKey patched k = some w ∧ u ≠ w)
    ∧ (∀ k v, lookupKey config k = some v → lookupKey patched k = some v →
      (∀ v2, (k, v2) ∉ (generate_delta_json config patched).additions)
      ∧ k ∉ (generate_delta_json config patched).deletions
      ∧ (∀ u w, (k, u, w) ∉ (generate_delta_json config patched).updates)) := by
  have hadd : ∀ k v, (k, v) ∈ (generate_delta_json config patched).additions ↔
      lookupKey patched k = some v ∧ lookupKey config k = none := by
    intro k v
    show (k, v) ∈ patched.filter (fun p => !(keyMem config p.1)) ↔ _
    rw [List.mem_filter]
    constructor
    · rintro ⟨hmem, hb⟩
      simp only [Bool.not_eq_true'] at hb
      exact ⟨lookupKey_of_mem_nodup hp hmem, (lookupKey_eq_none_iff _ _).mpr hb⟩
    · rintro ⟨h1, h2⟩
      refine ⟨mem_of_lookupKey_eq_some h1, ?_⟩
      simp [(lookupKey_eq_none_iff _ _).mp h2]
  have hdel : ∀ k, k ∈ (generate_delta_json config patched).deletions ↔
      lookupKey config k ≠ none ∧ lookupKey patched k = none := by
    intro k
    show k ∈ (config.map Prod.fst).filter (fun s => !(keyMem patched s)) ↔ _
    rw [List.mem_filter]
    constructor
    · rintro ⟨hmem, hb⟩
      simp only [Bool.not_eq_true'] at hb
      refine ⟨?_, (lookupKey_eq_none_iff _ _).mpr hb⟩
      exact (keyMem_eq_true_iff_ne_none config k).mp ((keyMem_iff_mem_keys config k).mpr hmem)
    · rintro ⟨h1, h2⟩
      refine ⟨(keyMem_iff_mem_keys config k).mp ((keyMem_eq_true_iff_ne_none config k).mpr h1), ?_⟩
      simp [(lookupKey_eq_none_iff patched k).mp h2]
  have hupd : ∀ k u w, (k, u, w) ∈ (generate_delta_json config patched).updates ↔
      lookupKey config k = some u ∧ lookupKey patched k = some w ∧ u ≠ w := by
    intro k u w
    show (k, u, w) ∈ (config.map Prod.fst).filterMap (updCandidate config patched) ↔ _
    rw [List.mem_filterMap]
    constructor
    · rintro ⟨a, ha, hsome⟩
      obtain ⟨rfl, h3, h4, h5⟩ :=
        (updCandidate_eq_some_iff config patched a k u w).mp hsome
      exact ⟨h3, h4, h5⟩
    · rintro ⟨h1, h2, h3⟩
      refine ⟨k, ?_, ?_⟩
      · exact List.mem_map.mpr ⟨(k, u), mem_of_lookupKey_eq_some h1, rfl⟩
      · exact (updCandidate_eq_some_iff config patched k k u w).mpr ⟨rfl, h1, h2, h3⟩
  refine ⟨hadd, hdel, hupd, ?_⟩
  intro k v h1 h2
  refine ⟨fun v2 hmem => ?_, fun hmem => ?_, fun u w hmem => ?_⟩
  · obtain ⟨h3, h4⟩ := (hadd k v2).mp hmem
    rw [h1] at h4
    exact Option.noConfusion h4
  · obtain ⟨h3, h4⟩ := (hdel k).mp hmem
    rw [h2] at h4
    exact Option.noConfusion h4
  · obtain ⟨h3, h4, h5⟩ := (hupd k u w).mp hmem
    have hu : u = v := Option.some.inj (h3.symm.trans h1)
    have hw : w = v := Option.some.inj (h4.symm.trans h2)
    exact h5 (hu.trans hw.symm)

/-- Witness for C3 on the worked example of the spec. -/
theorem C3_witness :
    ((([("a", 1), ("b", 2)] : List (String × Nat)).map Prod.fst).Nodup
      ∧ (([("b", 3), ("c", 4)] : List (String × Nat)).map Prod.fst).Nodup)
    ∧ (∀ k v, (k, v) ∈ (generate_delta_json [("a", 1), ("b", 2)]
        [("b", 3), ("c", 4)]).additions ↔
      lookupKey [("b", 3), ("c", 4)] k = some v
        ∧ lookupKey [("a", 1), ("b", 2)] k = none) := by
  refine ⟨⟨by decide, by decide⟩, ?_⟩
  exact (C3_delta_classification [("a", 1), ("b", 2)] [("b", 3), ("c", 4)]
    (by decide) (by decide)).1

/-- C4: `generate_res_patched_config` copies the base, removes every key in
`deletions` (removal of an absent key being a no-op), writes `update.to`
for every update (never consulting the recorded `from`), then writes every
addition, in that fixed order — so additions override updates, which
override deletions, the characterization below mentioning no `from` field.
-/
theorem C4_apply_patch_order (base : List (String × V)) (d : Delta V) (k : String) :
    (lookupKey (generate_res_patched_config base d) k =
      match lastAssoc d.additions k with
      | some v => some v
      | none =>
        match lastAssoc (d.updates.map (fun u => (u.1, u.2.2))) k with
        | some v => some v
        | none => if k ∈ d.deletions then none else lookupKey base k)
    ∧ (lookupKey base k = none → eraseKey base k = base) :=
  ⟨applyPatch_lookup base d k, eraseKey_of_not_mem base k⟩

/-- Witness for C4: absent-key removal is a no-op on a concrete map. -/
theorem C4_witness :
    lookupKey ([("a", 1)] : List (String × Nat)) "b" = none
    ∧ eraseKey ([("a", 1)] : List (String × Nat)) "b" = [("a", 1)] :=
  ⟨by decide,
    (C4_apply_patch_order [("a", 1)] (Delta.mk [] [] []) "b").2 (by decide)⟩

/-! ## Multiplicity parsing (`main.py` lines 88-94)

`source_mult.split('..')` and `'..' in source_mult` are modelled on the
character list of the string: `splitDD` splits at each non-overlapping,
leftmost-first occurrence of the two-character separator `".."` exactly as
Python `str.split("..")` does, and `containsDD` is the substring test. -/

/-- Prepend a character to the first segment of a split result. -/
def consHead (c : Char) : List (List Char) → List (List Char)
  | [] => [[c]]
  | s :: ss => (c :: s) :: ss

/-- Python `s.split("..")` over the characters of `s`. -/
def splitDD : List Char → List (List Char)
  | [] => [[]]
  | [c] => [[c]]
  | c1 :: c2 :: rest =>
    if c1 = '.' ∧ c2 = '.' then [] :: splitDD rest
    else consHead c1 (splitDD (c2 :: rest))

/-- Python `'..' in s` over the characters of `s`. -/
def containsDD : List Char → Bool
  | [] => false
  | [_] => false
  | c1 :: c2 :: rest => (decide (c1 = '.') && decide (c2 = '.')) || containsDD (c2 :: rest)

/-- Python `s.split("..")`, segments as strings. -/
def pySplitDD (s : String) : List String :=
  (splitDD s.data).map (fun cs => String.mk cs)

/-- Multiplicity parsing step of `generate_meta_json` (`main.py` 88-94):
`if '..' in source_mult: min_val, max_val = source_mult.split('..')`, a
two-element unpacking that raises `ValueError` (here `Except.error ()`)
unless the split has exactly two parts; without a separator, the single
token is both min and max. -/
def parseMult (s : String) : Except Unit (String × String) :=
  if containsDD s.data then
    match pySplitDD s with
    | [a, b] => .ok (a, b)
    | _ => .error ()
  else .ok (s, s)

theorem splitDD_ne_nil (cs : List Char) : splitDD cs ≠ [] := by
  induction cs using splitDD.induct with
  | case1 => simp [splitDD]
  | case2 c => simp [splitDD]
  | case3 c1 c2 rest hdd ih =>
    rw [splitDD, if_pos hdd]
    simp
  | case4 c1 c2 rest hdd ih =>
    rw [splitDD, if_neg hdd]
    rcases h : splitDD (c2 :: rest) with _ | ⟨s, ss⟩
    · exact absurd h ih
    · simp [consHead]

theorem containsDD_iff_two_le_length (cs : List Char) :
    containsDD cs = true ↔ 2 ≤ (splitDD cs).length := by
  induction cs using splitDD.induct with
  | case1 => simp [containsDD, splitDD]
  | case2 c => simp [containsDD, splitDD]
  | case3 c1 c2 rest hdd ih =>
    rw [splitDD, if_pos hdd, containsDD]
    have h1 : (decide (c1 = '.') && decide (c2 = '.')) = true := by
      simp [hdd.1, hdd.2]
    simp only [h1, Bool.true_or, List.length_cons, true_iff]
    have := splitDD_ne_nil rest
    rcases h : splitDD rest with _ | ⟨s, ss⟩
    · exact absurd h this
    · simp
  | case4 c1 c2 rest hdd ih =>
    rw [splitDD, if_neg hdd, containsDD]
    have h1 : (decide (c1 = '.') && decide (c2 = '.')) = false := by
      rcases hc1 : decide (c1 = '.') <;> rcases hc2 : decide (c2 = '.') <;> simp_all
    rw [h1, Bool.false_or, ih]
    rcases h : splitDD (c2 :: rest) with _ | ⟨s, ss⟩
    · exact absurd h (splitDD_ne_nil _)
    · simp [consHead]

/-! ## Model graph data and metadata generator (`main.py` lines 8-53, 80-122) -/

/-- One `<Aggregation>` declaration. -/
structure Agg where
  source : String
  target : String
  sourceMultiplicity : String
  targetMultiplicity : String
deriving DecidableEq

/-- One entry of the `classes` dict: `isRoot`, `documentation`, the
attribute list (name, type) and the resolved `children` list
(name, multiplicity). -/
structure ClassDef where
  isRoot : Bool
  documentation : String
  attributes : List (String × String)
  children : List (String × String)
deriving DecidableEq

/-- One element of the meta JSON array.  The conditionally-present dict
keys `min` / `max` (absent for the root class) are modelled as `Option`
fields. -/
structure MetaEntry where
  className : String
  documentation : String
  isRoot : Bool
  parameters : List (String × String)
  min? : Option String
  max? : Option String
deriving DecidableEq

/-- Effectful `map` over a list, stopping at the first error (the behaviour
of a Python `for` loop whose body may raise). -/
def mapExcept {ε α β : Type} (f : α → Except ε β) : List α → Except ε (List β)
  | [] => .ok []
  | a :: l =>
    match f a with
    | .error e => .error e
    | .ok b =>
      match mapExcept f l with
      | .error e => .error e
      | .ok bs => .ok (b :: bs)

/-- One step of the multiplicity scan of `generate_meta_json` (lines
86-94): an aggregation whose `source` is the class overwrites the
accumulated bounds (parsing may raise); others leave them unchanged. -/
def classMultStep (c : String) (acc : Except Unit (String × String)) (a : Agg) :
    Except Unit (String × String) :=
  match acc with
  | .error e => .error e
  | .ok m => if a.source = c then parseMult a.sourceMultiplicity else .ok m

/-- The multiplicity bounds `generate_meta_json` computes for class `c`:
default `("0", "*")`, overwritten by every matching aggregation in
declaration order. -/
def classMult (aggs : List Agg) (c : String) : Except Unit (String × String) :=
  aggs.foldl (classMultStep c) (.ok ("0", "*"))

/-- The last aggregation edge in declaration order whose `source` is `c`. -/
def lastMatchAgg : List Agg → String → Option Agg
  | [], _ => none
  | a :: t, c =>
    match lastMatchAgg t c with
    | some x => some x
    | none => if a.source = c then some a else none

/-- `generate_meta_json` (`main.py` 80-122): one descriptor per class in
mapping order; parameters are the attributes then the children (typed
`"class"`); `min`/`max` only for non-root classes. -/
def generate_meta_json (classes : List (String × ClassDef)) (aggs : List Agg) :
    Except Unit (List MetaEntry) :=
  mapExcept (fun p =>
    match classMult aggs p.1 with
    | .error e => .error e
    | .ok m => .ok
      { className := p.1
      , documentation := p.2.documentation
      , isRoot := p.2.isRoot
      , parameters := p.2.attributes ++ p.2.children.map (fun ch => (ch.1, "class"))
      , min? := if p.2.isRoot then none else some m.1
      , max? := if p.2.isRoot then none else some m.2 }) classes

theorem foldl_classMultStep_error (c : String) (l : List Agg) :
    l.foldl (classMultStep c) (.error ()) = .error () := by
  induction l with
  | nil => rfl
  | cons a t ih =>
    rw [List.foldl_cons]
    exact ih

theorem foldl_classMultStep_ok (c : String) (aggs : List Agg)
    (init : Except Unit (String × String)) (p : String × String)
    (h : aggs.foldl (classMultStep c) init = .ok p) :
    match lastMatchAgg aggs c with
    | none => init = .ok p
    | some a => parseMult a.sourceMultiplicity = .ok p := by
  induction aggs generalizing init with
  | nil => exact h
  | cons a t ih =>
    rw [List.foldl_cons] at h
    have ih2 := ih (classMultStep c init a) h
    rcases hl : lastMatchAgg t c with _ | x
    · rw [hl] at ih2
      show (match (match lastMatchAgg t c with
          | some x => some x
          | none => if a.source = c then some a else none) with
        | none => init = .ok p
        | some a => parseMult a.sourceMultiplicity = .ok p)
      rw [hl]
      by_cases hs : a.source = c
      · rw [if_pos hs]
        rcases init with e | m
        · rcases e
          rw [show classMultStep c (.error ()) a = .error () from rfl] at ih2
          exact absurd ih2 (fun hc => Except.noConfusion hc)
        · rw [show classMultStep c (.ok m) a =
              (if a.source = c then parseMult a.sourceMultiplicity else .ok m) from rfl,
            if_pos hs] at ih2
          exact ih2
      · rw [if_neg hs]
        rcases init with e | m
        · rcases e
          rw [show classMultStep c (.error ()) a = .error () from rfl] at ih2
          exact absurd ih2 (fun hc => Except.noConfusion hc)
        · rw [show classMultStep c (.ok m) a =
              (if a.source = c then parseMult a.sourceMultiplicity else .ok m) from rfl,
            if_neg hs] at ih2
          exact ih2
    · rw [hl] at ih2
      show (match (match lastMatchAgg t c with
          | some x => some x
          | none => if a.source = c then some a else none) with
        | none => init = .ok p
        | some a => parseMult a.sourceMultiplicity = .ok p)
      rw [hl]
      exact ih2

theorem classMult_error_of_bad (aggs : List Agg) (c : String) (a : Agg)
    (ha : a ∈ aggs) (hs : a.source = c)
    (hbad : parseMult a.sourceMultiplicity = .error ()) :
    classMult aggs c = .error () := by
  have main : ∀ (l : List Agg) (init : Except Unit (String × String)), a ∈ l →
      l.foldl (classMultStep c) init = .error () := by
    intro l
    induction l with
    | nil => intro init h; simp at h
    | cons x t ih =>
      intro init h
      rcases List.mem_cons.mp h with h1 | h1
      · subst h1
        rw [List.foldl_cons]
        rcases init with e | m
        · rcases e
          rw [show classMultStep c (.error ()) a = .error () from rfl]
          exact foldl_classMultStep_error c t
        · rw [show classMultStep c (.ok m) a =
              (if a.source = c then parseMult a.sourceMultiplicity else .ok m) from rfl,
            if_pos hs, hbad]
          exact foldl_classMultStep_error c t
      · rw [List.foldl_cons]
        exact ih _ h1
  exact main aggs _ ha

theorem mapExcept_ok_pointwise {ε α β : Type} (f : α → Except ε β) (l : List α)
    (ys : List β) (h : mapExcept f l = .ok ys) :
    ys.length = l.length
    ∧ ∀ i (h1 : i < l.length) (h2 : i < ys.length),
        f (l.get ⟨i, h1⟩) = .ok (ys.get ⟨i, h2⟩) := by
  induction l generalizing ys with
  | nil =>
    rw [mapExcept] at h
    have : ([] : List β) = ys := Except.ok.inj h
    subst this
    exact ⟨rfl, fun i h1 h2 => absurd h1 (Nat.not_lt_zero i)⟩
  | cons x t ih =>
    rw [mapExcept] at h
    rcases hx : f x with e | b
    · rw [hx] at h
      exact absurd h (fun hc => Except.noConfusion hc)
    · rw [hx] at h
      rcases ht : mapExcept f t with e | bs
      · rw [ht] at h
        exact absurd h (fun hc => Except.noConfusion hc)
      · rw [ht] at h
        have : (b :: bs) = ys := Except.ok.inj h
        subst this
        obtain ⟨hlen, hpt⟩ := ih bs ht
        refine ⟨by simp [hlen], ?_⟩
        intro i h1 h2
        rcases i with _ | j
        · exact hx
        · exact hpt j (Nat.lt_of_succ_lt_succ h1) (Nat.lt_of_succ_lt_succ h2)

theorem mapExcept_error_of_mem {α β : Type} (f : α → Except Unit β) (l : List α)
    (h : ∃ a ∈ l, f a = .error ()) : mapExcept f l = .error () := by
  obtain ⟨a, ha, hfa⟩ := h
  induction l with
  | nil => simp at ha
  | cons x t ih =>
    rw [mapExcept]
    rcases hx : f x with e | b
    · rcases e
      rfl
    · rcases List.mem_cons.mp ha with h1 | h1
      · subst h1
        rw [hx] at hfa
        exact absurd hfa (fun hc => Except.noConfusion hc)
      · rw [ih h1]

/-- C7: multiplicity parsing: if the string contains `".."` it is split
into min and max parts; otherwise the single token becomes both min and
max; in particular `"3"` parses to `("3", "3")`. -/
theorem C7_multiplicity_parse :
    (∀ s a b, pySplitDD s = [a, b] → parseMult s = .ok (a, b))
    ∧ (∀ s, containsDD s.data = false → parseMult s = .ok (s, s))
    ∧ parseMult "3" = .ok ("3", "3") := by
  refine ⟨?_, ?_, by decide⟩
  · intro s a b h
    have hc : containsDD s.data = true := by
      rw [containsDD_iff_two_le_length]
      have : (pySplitDD s).length = (splitDD s.data).length := by
        simp [pySplitDD]
      rw [h] at this
      rw [← this]
      exact le_rfl
    rw [parseMult, if_pos hc, h]
  · intro s h
    rw [parseMult, if_neg (by rw [h]; exact Bool.noConfusion)]

/-- Witness for C7: `"1..*"` splits to min `"1"`, max `"*"`; `"3"` has no
separator and parses to `("3", "3")`. -/
theorem C7_witness :
    (pySplitDD "1..*" = ["1", "*"] ∧ parseMult "1..*" = .ok ("1", "*"))
    ∧ (containsDD "3".data = false ∧ parseMult "3" = .ok ("3", "3")) :=
  ⟨⟨by decide, C7_multiplicity_parse.1 "1..*" "1" "*" (by decide)⟩,
    ⟨by decide, C7_multiplicity_parse.2.1 "3" (by decide)⟩⟩

/-- C5: for every class (by position in mapping order), `generate_meta_json`
attaches, for non-root classes only, min/max bounds coming from the last
aggregation edge in declaration order whose source is the class name
(later matches overwrite earlier ones), defaulting to `("0", "*")` when no
edge matches; for a root class no min/max fields are attached. -/
theorem C5_last_edge_bounds (classes : List (String × ClassDef)) (aggs : List Agg)
    (entries : List MetaEntry) (h : generate_meta_json classes aggs = .ok entries) :
    entries.length = classes.length
    ∧ ∀ i (h1 : i < classes.length) (h2 : i < entries.length),
      (entries.get ⟨i, h2⟩).className = (classes.get ⟨i, h1⟩).1
      ∧ ((classes.get ⟨i, h1⟩).2.isRoot = true →
          (entries.get ⟨i, h2⟩).min? = none ∧ (entries.get ⟨i, h2⟩).max? = none)
      ∧ ((classes.get ⟨i, h1⟩).2.isRoot = false →
          match lastMatchAgg aggs (classes.get ⟨i, h1⟩).1 with
          | none => (entries.get ⟨i, h2⟩).min? = some "0"
              ∧ (entries.get ⟨i, h2⟩).max? = some "*"
          | some a => ∃ mn mx, parseMult a.sourceMultiplicity = .ok (mn, mx)
              ∧ (entries.get ⟨i, h2⟩).min? = some mn
              ∧ (entries.get ⟨i, h2⟩).max? = some mx) := by
  obtain ⟨hlen, hpt⟩ := mapExcept_ok_pointwise _ classes entries h
  refine ⟨hlen, ?_⟩
  intro i h1 h2
  have hfi := hpt i h1 h2
  rcases hm : classMult aggs (classes.get ⟨i, h1⟩).1 with e | m
  · simp only [hm] at hfi
    exact absurd hfi (fun hc => Except.noConfusion hc)
  · simp only [hm] at hfi
    have he : entries.get ⟨i, h2⟩ =
        { className := (classes.get ⟨i, h1⟩).1
        , documentation := (classes.get ⟨i, h1⟩).2.documentation
        , isRoot := (classes.get ⟨i, h1⟩).2.isRoot
        , parameters := (classes.get ⟨i, h1⟩).2.attributes
            ++ (classes.get ⟨i, h1⟩).2.children.map (fun ch => (ch.1, "class"))
        , min? := if (classes.get ⟨i, h1⟩).2.isRoot then none else some m.1
        , max? := if (classes.get ⟨i, h1⟩).2.isRoot then none else some m.2 } :=
      (Except.ok.inj hfi).symm
    refine ⟨by rw [he], ?_, ?_⟩
    · intro hr
      rw [he]
      refine ⟨?_, ?_⟩
      · show (if (classes.get ⟨i, h1⟩).2.isRoot = true then none else some m.1) = none
        rw [if_pos hr]
      · show (if (classes.get ⟨i, h1⟩).2.isRoot = true then none else some m.2) = none
        rw [if_pos hr]
    · intro hr
      have hnr : ¬((classes.get ⟨i, h1⟩).2.isRoot = true) := by
        rw [hr]
        exact fun hc => Bool.noConfusion hc
      have hspec := foldl_classMultStep_ok _ aggs _ m hm
      rcases hlm : lastMatchAgg aggs (classes.get ⟨i, h1⟩).1 with _ | a
      · rw [hlm] at hspec
        have hm2 : m = ("0", "*") := (Except.ok.inj hspec).symm
        subst hm2
        rw [he]
        refine ⟨?_, ?_⟩
        · show (if (classes.get ⟨i, h1⟩).2.isRoot = true then none
              else some (("0", "*") : String × String).1) = some "0"
          rw [if_neg hnr]
        · show (if (classes.get ⟨i, h1⟩).2.isRoot = true then none
              else some (("0", "*") : String × String).2) = some "*"
          rw [if_neg hnr]
      · rw [hlm] at hspec
        refine ⟨m.1, m.2, hspec, ?_, ?_⟩ <;> rw [he]
        · show (if (classes.get ⟨i, h1⟩).2.isRoot = true then none else some m.1)
            = some m.1
          rw [if_neg hnr]
        · show (if (classes.get ⟨i, h1⟩).2.isRoot = true then none else some m.2)
            = some m.2
          rw [if_neg hnr]

/-- Witness classes for the metadata claims: a root with one contained
child class, as in the spec's worked example. -/
def wClasses : List (String × ClassDef) :=
  [("Root", ⟨true, "", [], [("Item", "1..*")]⟩),
   ("Item", ⟨false, "", [("name", "string")], []⟩)]

/-- Witness aggregations: `Root` contains `Item` with multiplicity `1..*`. -/
def wAggs : List Agg := [⟨"Item", "Root", "1..*", "1"⟩]

/-- The meta entries `generate_meta_json` produces for `wClasses`/`wAggs`. -/
def wEntries : List MetaEntry :=
  [⟨"Root", "", true, [("Item", "class")], none, none⟩,
   ⟨"Item", "", false, [("name", "string")], some "1", some "*"⟩]

/-- Witness for C5 on the spec's worked example: `Item` gets
`min = "1"`, `max = "*"`; the root gets no bounds. -/
theorem C5_witness :
    generate_meta_json wClasses wAggs = .ok wEntries
    ∧ (wEntries.length = wClasses.length
      ∧ ∀ i (h1 : i < wClasses.length) (h2 : i < wEntries.length),
        (wEntries.get ⟨i, h2⟩).className = (wClasses.get ⟨i, h1⟩).1
        ∧ ((wClasses.get ⟨i, h1⟩).2.isRoot = true →
            (wEntries.get ⟨i, h2⟩).min? = none ∧ (wEntries.get ⟨i, h2⟩).max? = none)
        ∧ ((wClasses.get ⟨i, h1⟩).2.isRoot = false →
            match lastMatchAgg wAggs (wClasses.get ⟨i, h1⟩).1 with
            | none => (wEntries.get ⟨i, h2⟩).min? = some "0"
                ∧ (wEntries.get ⟨i, h2⟩).max? = some "*"
            | some a => ∃ mn mx, parseMult a.sourceMultiplicity = .ok (mn, mx)
                ∧ (wEntries.get ⟨i, h2⟩).min? = some mn
                ∧ (wEntries.get ⟨i, h2⟩).max? = some mx)) :=
  ⟨by decide, C5_last_edge_bounds wClasses wAggs wEntries (by decide)⟩

/-- C8 counterexample: the multiplicity string `"1.."` has an empty max
part — by the claim a fatal parse error should propagate — yet
`generate_meta_json` succeeds, producing the guessed bounds
`min = "1"`, `max = ""`. -/
theorem C8_counterexample :
    generate_meta_json [("A", ⟨false, "", [], []⟩)] [⟨"A", "A", "1..", "1"⟩]
      = .ok [⟨"A", "", false, [], some "1", some ""⟩] := by decide

/-- C8 (amended): only a multiplicity string whose split on `".."` has
three or more parts (i.e. more than one separator) makes the two-element
unpacking fail; such a string on any edge whose source is a declared class
makes `generate_meta_json` propagate the fatal parse error.  (A string
with exactly one separator parses without error even when the min or max
part is empty.) -/
theorem C8_separator_error (classes : List (String × ClassDef)) (aggs : List Agg)
    (name : String) (cd : ClassDef) (a : Agg)
    (hmem : (name, cd) ∈ classes) (ha : a ∈ aggs) (hs : a.source = name)
    (hlen : 3 ≤ (pySplitDD a.sourceMultiplicity).length) :
    generate_meta_json classes aggs = .error () := by
  have hbad : parseMult a.sourceMultiplicity = .error () := by
    have hc : containsDD a.sourceMultiplicity.data = true := by
      rw [containsDD_iff_two_le_length]
      have hsp : (pySplitDD a.sourceMultiplicity).length
          = (splitDD a.sourceMultiplicity.data).length := by
        simp [pySplitDD]
      rw [hsp] at hlen
      exact Nat.le_trans (by decide) hlen
    rw [parseMult, if_pos hc]
    revert hlen
    rcases pySplitDD a.sourceMultiplicity with _ | ⟨x, _ | ⟨y, _ | ⟨z, t⟩⟩⟩
    · intro hlen
      simp at hlen
    · intro hlen
      simp at hlen
    · intro hlen
      simp at hlen
    · intro hlen
      rfl
  have hcm : classMult aggs name = .error () :=
    classMult_error_of_bad aggs name a ha hs hbad
  refine mapExcept_error_of_mem _ classes ⟨(name, cd), hmem, ?_⟩
  simp only [hcm]

/-- Witness for C8 (amended): the doubly-separated string `"1..2..3"`
aborts metadata generation. -/
theorem C8_witness :
    (("A", (⟨false, "", [], []⟩ : ClassDef)) ∈ [("A", (⟨false, "", [], []⟩ : ClassDef))]
      ∧ (⟨"A", "A", "1..2..3", "1"⟩ : Agg) ∈ [(⟨"A", "A", "1..2..3", "1"⟩ : Agg)]
      ∧ (⟨"A", "A", "1..2..3", "1"⟩ : Agg).source = "A"
      ∧ 3 ≤ (pySplitDD (⟨"A", "A", "1..2..3", "1"⟩ : Agg).sourceMultiplicity).length)
    ∧ generate_meta_json [("A", ⟨false, "", [], []⟩)] [⟨"A", "A", "1..2..3", "1"⟩]
      = .error () :=
  ⟨⟨by decide, by decide, by decide, by decide⟩,
    C8_separator_error [("A", ⟨false, "", [], []⟩)] [⟨"A", "A", "1..2..3", "1"⟩]
      "A" ⟨false, "", [], []⟩ ⟨"A", "A", "1..2..3", "1"⟩
      (by decide) (by decide) (by decide) (by decide)⟩

/-! ## Tree materializer (`main.py` lines 56-77) and model graph
construction (lines 8-53)

`build_xml_element` recurses on the containment graph with no guard of its
own; CPython bounds the interpreter stack (`sys.getrecursionlimit`) and
raises `RecursionError` when the bound is hit.  The embedding makes that
bound an explicit `fuel` argument: each nested call costs one unit and
exhaustion is `GenErr.recursionLimit`.  A child naming an unknown class is
a Python `KeyError` (`GenErr.missingClass`); `next` over an empty
generator in `generate_config_xml` is `StopIteration`
(`GenErr.missingRoot`). -/

/-- Runtime errors of `generate_config_xml`. -/
inductive GenErr
  | missingRoot
  | missingClass (name : String)
  | recursionLimit
deriving DecidableEq

/-- Python `'  ' * indent`. -/
def indentStr : Nat → String
  | 0 => ""
  | n + 1 => "  " ++ indentStr n

/-- `build_xml_element` (`main.py` 57-70): opening tag, one line per
attribute, recursively materialized child blocks, closing tag. -/
def build_xml_element (classes : List (String × ClassDef)) :
    Nat → String → Nat → Except GenErr (List String)
  | 0, _, _ => .error .recursionLimit
  | fuel + 1, name, indent =>
    match lookupKey classes name with
    | none => .error (.missingClass name)
    | some cd =>
      match mapExcept (fun ch => build_xml_element classes fuel ch.1 (indent + 1))
          cd.children with
      | .error e => .error e
      | .ok blocks => .ok
          ([indentStr indent ++ "<" ++ name ++ ">"]
            ++ cd.attributes.map (fun a =>
                indentStr (indent + 1) ++ "<" ++ a.1 ++ ">" ++ a.2 ++ "</" ++ a.1 ++ ">")
            ++ blocks.flatten ++ [indentStr indent ++ "</" ++ name ++ ">"])

/-- The XML declaration line. -/
def xmlHeader : String := "<?xml version=\"1.0\" encoding=\"UTF-8\"?>"

/-- `generate_config_xml` (`main.py` 56-77): take the first class in
mapping order with `isRoot`, build its block under the declaration line,
join with newlines. -/
def generate_config_xml (classes : List (String × ClassDef)) (fuel : Nat) :
    Except GenErr String :=
  match classes.find? (fun p => p.2.isRoot) with
  | none => .error .missingRoot
  | some p =>
    Except.map (fun ls => String.intercalate "\n" (xmlHeader :: ls))
      (build_xml_element classes fuel p.1 0)

/-- One `<Class>` declaration of the input model (attributes as
(name, type) pairs). -/
structure ClassDecl where
  name : String
  isRoot : Bool
  documentation : String
  attributes : List (String × String)
deriving DecidableEq

/-- First phase of `parse_xml` (lines 15-32): build the classes dict, every
entry starting with empty `children` (repeated names overwrite, as Python
dict assignment does). -/
def initClasses (ds : List ClassDecl) : List (String × ClassDef) :=
  ds.foldl (fun cs d => setKey cs d.name ⟨d.isRoot, d.documentation, d.attributes, []⟩) []

/-- One step of the second phase of `parse_xml` (lines 34-51): if both
`source` and `target` are known classes, append
`(source, sourceMultiplicity)` to the target's `children`. -/
def addEdge (cs : List (String × ClassDef)) (a : Agg) : List (String × ClassDef) :=
  if keyMem cs a.source && keyMem cs a.target then
    cs.map (fun p => if p.1 = a.target then
      (p.1, ⟨p.2.isRoot, p.2.documentation, p.2.attributes,
        p.2.children ++ [(a.source, a.sourceMultiplicity)]⟩) else p)
  else cs

/-- `parse_xml` (lines 8-53) on the in-memory declarations: the classes
mapping with aggregation edges resolved into `children`, plus the full
aggregation list (unresolvable edges are kept in the list but dropped from
`children`). -/
def parse_xml (ds : List ClassDecl) (aggs : List Agg) :
    List (String × ClassDef) × List Agg :=
  (aggs.foldl addEdge (initClasses ds), aggs)

/-- Containment step of the model graph: `b` is listed among the children
of class `a`. -/
def ChildStep (classes : List (String × ClassDef)) (a b : String) : Prop :=
  ∃ cd, lookupKey classes a = some cd ∧ b ∈ cd.children.map Prod.fst

/-- Reachability along containment steps. -/
def Reach (classes : List (String × ClassDef)) : String → String → Prop :=
  Relation.ReflTransGen (ChildStep classes)

/-- Some node reachable from `n` lies on a containment cycle. -/
def ReachesCycle (classes : List (String × ClassDef)) (n : String) : Prop :=
  ∃ c, Reach classes n c ∧ Relation.TransGen (ChildStep classes) c c

/-- Abstract output line of the materializer: opening tag, closing tag, or
attribute line, each with its indentation level. -/
inductive Line
  | openL (indent : Nat) (name : String)
  | closeL (indent : Nat) (name : String)
  | attrL (indent : Nat) (attrName attrType : String)
deriving DecidableEq

/-- Concrete text of a `Line`, exactly as `build_xml_element` formats it. -/
def renderLine : Line → String
  | .openL i n => indentStr i ++ "<" ++ n ++ ">"
  | .closeL i n => indentStr i ++ "</" ++ n ++ ">"
  | .attrL i a t => indentStr i ++ "<" ++ a ++ ">" ++ t ++ "</" ++ a ++ ">"

/-- `build_xml_element` at the `Line` level (same recursion, before
rendering to strings). -/
def emitSeq (classes : List (String × ClassDef)) :
    Nat → String → Nat → Except GenErr (List Line)
  | 0, _, _ => .error .recursionLimit
  | fuel + 1, name, indent =>
    match lookupKey classes name with
    | none => .error (.missingClass name)
    | some cd =>
      match mapExcept (fun ch => emitSeq classes fuel ch.1 (indent + 1)) cd.children with
      | .error e => .error e
      | .ok blocks => .ok
          ([Line.openL indent name]
            ++ cd.attributes.map (fun a => Line.attrL (indent + 1) a.1 a.2)
            ++ blocks.flatten ++ [Line.closeL indent name])

/-- Is this line the opening tag of class `d`? -/
def isOpenOf (d : String) : Line → Bool
  | .openL _ n => decide (n = d)
  | _ => false

/-- Is this line the closing tag of class `d`? -/
def isCloseOf (d : String) : Line → Bool
  | .closeL _ n => decide (n = d)
  | _ => false

/-- Number of opening tags of class `d` in a line sequence. -/
def countOpen (L : List Line) (d : String) : Nat := L.countP (isOpenOf d)

/-- Number of closing tags of class `d` in a line sequence. -/
def countClose (L : List Line) (d : String) : Nat := L.countP (isCloseOf d)

/-- Names of the children of class `c` (empty when `c` is unknown). -/
def childNames (classes : List (String × ClassDef)) (c : String) : List String :=
  match lookupKey classes c with
  | some cd => cd.children.map Prod.fst
  | none => []

/-- Number of containment paths of length `< fuel` from `c` to `d`. -/
def numPaths (classes : List (String × ClassDef)) : Nat → String → String → Nat
  | 0, _, _ => 0
  | fuel + 1, c, d =>
    (if c = d then 1 else 0)
      + ((childNames classes c).map (fun ch => numPaths classes fuel ch d)).sum

theorem mapExcept_ok_of_all {ε α β : Type} (f : α → Except ε β) (l : List α)
    (h : ∀ a ∈ l, ∃ b, f a = .ok b) : ∃ bs, mapExcept f l = .ok bs := by
  induction l with
  | nil => exact ⟨[], rfl⟩
  | cons x t ih =>
    obtain ⟨b, hb⟩ := h x (List.mem_cons_self x t)
    obtain ⟨bs, hbs⟩ := ih (fun a ha => h a (List.mem_cons_of_mem x ha))
    exact ⟨b :: bs, by rw [mapExcept, hb, hbs]⟩

theorem mapExcept_error_or_ok {ε α β : Type} (f : α → Except ε β) (l : List α) (E : ε)
    (h : ∀ a ∈ l, f a = .error E ∨ ∃ b, f a = .ok b) :
    mapExcept f l = .error E ∨ ∃ bs, mapExcept f l = .ok bs := by
  induction l with
  | nil => exact Or.inr ⟨[], rfl⟩
  | cons x t ih =>
    rcases h x (List.mem_cons_self x t) with hx | ⟨b, hb⟩
    · left
      rw [mapExcept, hx]
    · rcases ih (fun a ha => h a (List.mem_cons_of_mem x ha)) with ht | ⟨bs, hbs⟩
      · left
        rw [mapExcept, hb, ht]
      · right
        exact ⟨b :: bs, by rw [mapExcept, hb, hbs]⟩

theorem mapExcept_error_of_mem_all {ε α β : Type} (f : α → Except ε β) (l : List α)
    (E : ε) (hall : ∀ a ∈ l, f a = .error E ∨ ∃ b, f a = .ok b)
    (hbad : ∃ a ∈ l, f a = .error E) : mapExcept f l = .error E := by
  induction l with
  | nil =>
    obtain ⟨a, ha, _⟩ := hbad
    simp at ha
  | cons x t ih =>
    rcases hall x (List.mem_cons_self x t) with hx | ⟨b, hb⟩
    · rw [mapExcept, hx]
    · obtain ⟨a, ha, hae⟩ := hbad
      rcases List.mem_cons.mp ha with rfl | ha2
      · exact absurd (hb.symm.trans hae) (fun hc => Except.noConfusion hc)
      · rw [mapExcept, hb,
          ih (fun c hc => hall c (List.mem_cons_of_mem x hc)) ⟨a, ha2, hae⟩]

theorem mapExcept_map {ε α β γ : Type} (f : α → Except ε β) (g : β → γ) (l : List α) :
    mapExcept (fun a => Except.map g (f a)) l = Except.map (List.map g) (mapExcept f l) := by
  induction l with
  | nil => rfl
  | cons x t ih =>
    simp only [mapExcept]
    rw [ih]
    rcases f x with e | b
    · rfl
    · rcases mapExcept f t with e2 | bs <;> rfl

/-! ### Equation lemmas for `build_xml_element` and `emitSeq` -/

theorem build_none (classes : List (String × ClassDef)) (f : Nat) (n : String) (i : Nat)
    (h : lookupKey classes n = none) :
    build_xml_element classes (f + 1) n i = .error (.missingClass n) := by
  simp only [build_xml_element, h]

theorem build_succ_err (classes : List (String × ClassDef)) (f : Nat) (n : String)
    (i : Nat) (cd : ClassDef) (e : GenErr) (hlk : lookupKey classes n = some cd)
    (hm : mapExcept (fun ch => build_xml_element classes f ch.1 (i + 1)) cd.children
      = .error e) :
    build_xml_element classes (f + 1) n i = .error e := by
  simp only [build_xml_element, hlk, hm]

theorem build_succ_ok (classes : List (String × ClassDef)) (f : Nat) (n : String)
    (i : Nat) (cd : ClassDef) (blocks : List (List String))
    (hlk : lookupKey classes n = some cd)
    (hm : mapExcept (fun ch => build_xml_element classes f ch.1 (i + 1)) cd.children
      = .ok blocks) :
    build_xml_element classes (f + 1) n i = .ok
      ([indentStr i ++ "<" ++ n ++ ">"]
        ++ cd.attributes.map (fun a =>
            indentStr (i + 1) ++ "<" ++ a.1 ++ ">" ++ a.2 ++ "</" ++ a.1 ++ ">")
        ++ blocks.flatten ++ [indentStr i ++ "</" ++ n ++ ">"]) := by
  simp only [build_xml_element, hlk, hm]

theorem emitSeq_none (classes : List (String × ClassDef)) (f : Nat) (n : String) (i : Nat)
    (h : lookupKey classes n = none) :
    emitSeq classes (f + 1) n i = .error (.missingClass n) := by
  simp only [emitSeq, h]

theorem emitSeq_succ_err (classes : List (String × ClassDef)) (f : Nat) (n : String)
    (i : Nat) (cd : ClassDef) (e : GenErr) (hlk : lookupKey classes n = some cd)
    (hm : mapExcept (fun ch => emitSeq classes f ch.1 (i + 1)) cd.children = .error e) :
    emitSeq classes (f + 1) n i = .error e := by
  simp only [emitSeq, hlk, hm]

theorem emitSeq_succ_ok (classes : List (String × ClassDef)) (f : Nat) (n : String)
    (i : Nat) (cd : ClassDef) (blocks : List (List Line))
    (hlk : lookupKey classes n = some cd)
    (hm : mapExcept (fun ch => emitSeq classes f ch.1 (i + 1)) cd.children = .ok blocks) :
    emitSeq classes (f + 1) n i = .ok
      ([Line.openL i n] ++ cd.attributes.map (fun a => Line.attrL (i + 1) a.1 a.2)
        ++ blocks.flatten ++ [Line.closeL i n]) := by
  simp only [emitSeq, hlk, hm]

/-- The closed-graph invariant: every child reference of every class is a
key of the mapping. -/
def ClosedGraph (classes : List (String × ClassDef)) : Prop :=
  ∀ p ∈ classes, ∀ ch ∈ p.2.children, keyMem classes ch.1 = true

theorem build_closed_cases (classes : List (String × ClassDef))
    (hclosed : ClosedGraph classes) :
    ∀ (fuel : Nat) (n : String) (i : Nat), keyMem classes n = true →
      build_xml_element classes fuel n i = .error .recursionLimit
      ∨ ∃ out, build_xml_element classes fuel n i = .ok out := by
  intro fuel
  induction fuel with
  | zero =>
    intro n i _
    exact Or.inl rfl
  | succ f ih =>
    intro n i hn
    have hne : lookupKey classes n ≠ none := by
      intro hc
      rw [lookupKey_eq_none_iff, hn] at hc
      exact Bool.noConfusion hc
    rcases hlk : lookupKey classes n with _ | cd
    · exact absurd hlk hne
    · have hmemcd : (n, cd) ∈ classes := mem_of_lookupKey_eq_some hlk
      have hstep := mapExcept_error_or_ok
        (fun ch => build_xml_element classes f ch.1 (i + 1)) cd.children
        GenErr.recursionLimit
        (fun ch hchm => ih ch.1 (i + 1) (hclosed (n, cd) hmemcd ch hchm))
      rcases hstep with he | ⟨bs, hbs⟩
      · exact Or.inl (build_succ_err classes f n i cd _ hlk he)
      · exact Or.inr ⟨_, build_succ_ok classes f n i cd bs hlk hbs⟩

theorem reachesCycle_child (classes : List (String × ClassDef)) (n : String)
    (h : ReachesCycle classes n) :
    ∃ b, ChildStep classes n b ∧ ReachesCycle classes b := by
  obtain ⟨c, hr, hc⟩ := h
  rcases Relation.ReflTransGen.cases_head hr with rfl | ⟨m, hstep, hrest⟩
  · obtain ⟨m, hstep, hrest⟩ := Relation.TransGen.head'_iff.mp hc
    exact ⟨m, hstep, ⟨n, hrest, hc⟩⟩
  · exact ⟨m, hstep, ⟨c, hrest, hc⟩⟩

theorem build_cycle_not_ok (classes : List (String × ClassDef)) :
    ∀ (fuel : Nat) (n : String) (i : Nat), ReachesCycle classes n →
      ∀ out, build_xml_element classes fuel n i ≠ .ok out := by
  intro fuel
  induction fuel with
  | zero =>
    intro n i _ out hc
    exact Except.noConfusion hc
  | succ f ih =>
    intro n i hn out hc
    obtain ⟨b, hstep, hb⟩ := reachesCycle_child classes n hn
    obtain ⟨cd, hlk, hbmem⟩ := hstep
    obtain ⟨ch, hchmem, hchname⟩ := List.mem_map.mp hbmem
    simp only [build_xml_element, hlk] at hc
    rcases hm : mapExcept (fun c => build_xml_element classes f c.1 (i + 1))
        cd.children with e | blocks
    · simp only [hm] at hc
      exact Except.noConfusion hc
    · obtain ⟨hlen, hpt⟩ := mapExcept_ok_pointwise _ cd.children blocks hm
      obtain ⟨⟨j, hj⟩, hjeq⟩ := List.mem_iff_get.mp hchmem
      have hok := hpt j hj (by rw [hlen]; exact hj)
      rw [hjeq, hchname] at hok
      exact ih b (i + 1) hb _ hok

theorem build_cycle_error (classes : List (String × ClassDef))
    (hclosed : ClosedGraph classes) :
    ∀ (fuel : Nat) (n : String) (i : Nat), ReachesCycle classes n →
      build_xml_element classes fuel n i = .error .recursionLimit := by
  intro fuel n i hn
  have hkm : keyMem classes n = true := by
    obtain ⟨b, hstep, _⟩ := reachesCycle_child classes n hn
    obtain ⟨cd, hlk, _⟩ := hstep
    rw [keyMem_iff_mem_keys]
    exact List.mem_map.mpr ⟨(n, cd), mem_of_lookupKey_eq_some hlk, rfl⟩
  rcases build_closed_cases classes hclosed fuel n i hkm with he | ⟨out, hok⟩
  · exact he
  · exact absurd hok (build_cycle_not_ok classes fuel n i hn out)

/-- C2: when the containment graph has a cycle reachable from the root
class that `generate_config_xml` selects, the function reports a fatal
error at every recursion limit instead of producing output (and on a
closed graph the error is precisely the interpreter's recursion-limit
error, CPython's `RecursionError`); by construction the fuelled embedding
is a total function returning either output or a reported error. -/
theorem C2_cycle_error (classes : List (String × ClassDef)) (rname : String)
    (rcd : ClassDef)
    (hroot : classes.find? (fun p => p.2.isRoot) = some (rname, rcd))
    (hcycle : ReachesCycle classes rname) :
    ∀ fuel, (∃ e, generate_config_xml classes fuel = .error e)
      ∧ (ClosedGraph classes →
          generate_config_xml classes fuel = .error .recursionLimit) := by
  intro fuel
  have heq : generate_config_xml classes fuel
      = Except.map (fun ls => String.intercalate "\n" (xmlHeader :: ls))
        (build_xml_element classes fuel rname 0) := by
    rw [generate_config_xml, hroot]
  constructor
  · rcases hb : build_xml_element classes fuel rname 0 with e | out
    · exact ⟨e, by rw [heq, hb]; rfl⟩
    · exact absurd hb (build_cycle_not_ok classes fuel rname 0 hcycle out)
  · intro hclosed
    rw [heq, build_cycle_error classes hclosed fuel rname 0 hcycle]
    rfl

/-- Witness for C2: the one-class graph whose root contains itself. -/
theorem C2_witness :
    ([("A", (⟨true, "", [], [("A", "1")]⟩ : ClassDef))].find?
        (fun p => p.2.isRoot) = some ("A", ⟨true, "", [], [("A", "1")]⟩)
      ∧ ReachesCycle [("A", ⟨true, "", [], [("A", "1")]⟩)] "A")
    ∧ ∀ fuel,
      (∃ e, generate_config_xml [("A", ⟨true, "", [], [("A", "1")]⟩)] fuel = .error e)
      ∧ (ClosedGraph [("A", ⟨true, "", [], [("A", "1")]⟩)] →
          generate_config_xml [("A", ⟨true, "", [], [("A", "1")]⟩)] fuel
            = .error .recursionLimit) := by
  have hstep : ChildStep [("A", ⟨true, "", [], [("A", "1")]⟩)] "A" "A" :=
    ⟨⟨true, "", [], [("A", "1")]⟩, by decide, by decide⟩
  have hcycle : ReachesCycle [("A", ⟨true, "", [], [("A", "1")]⟩)] "A" :=
    ⟨"A", Relation.ReflTransGen.refl, Relation.TransGen.single hstep⟩
  exact ⟨⟨by decide, hcycle⟩,
    C2_cycle_error [("A", ⟨true, "", [], [("A", "1")]⟩)] "A"
      ⟨true, "", [], [("A", "1")]⟩ (by decide) hcycle⟩

theorem find?_eq_head?_filter {α : Type} (p : α → Bool) (l : List α) :
    l.find? p = (l.filter p).head? := by
  induction l with
  | nil => rfl
  | cons x t ih =>
    by_cases hx : p x
    · rw [List.find?_cons_of_pos t hx, List.filter_cons_of_pos hx]
      rfl
    · rw [List.find?_cons_of_neg t hx, List.filter_cons_of_neg hx]
      exact ih

/-- C9: when no class has `isRoot = true`, `generate_config_xml` fails with
the missing-root error (Python's `StopIteration` from `next`) instead of
producing output; when at least one root exists, the first class in
mapping order with `isRoot = true` is the class the tree is built from. -/
theorem C9_missing_root (classes : List (String × ClassDef)) (fuel : Nat) :
    ((∀ p ∈ classes, p.2.isRoot = false) →
      generate_config_xml classes fuel = .error .missingRoot)
    ∧ (∀ rname rcd,
        (classes.filter (fun p => p.2.isRoot)).head? = some (rname, rcd) →
        generate_config_xml classes fuel
          = Except.map (fun ls => String.intercalate "\n" (xmlHeader :: ls))
            (build_xml_element classes fuel rname 0)) := by
  constructor
  · intro h
    have hf : classes.find? (fun p => p.2.isRoot) = none := by
      rw [List.find?_eq_none]
      intro p hp
      simp [h p hp]
    rw [generate_config_xml, hf]
  · intro rname rcd h
    have hf : classes.find? (fun p => p.2.isRoot) = some (rname, rcd) := by
      rw [find?_eq_head?_filter]
      exact h
    rw [generate_config_xml, hf]

/-- Witness for C9: a rootless one-class graph errors; on `wClasses` the
first root in mapping order, `Root`, is used. -/
theorem C9_witness :
    ((∀ p ∈ [("A", (⟨false, "", [], []⟩ : ClassDef))], p.2.isRoot = false)
      ∧ generate_config_xml [("A", ⟨false, "", [], []⟩)] 5 = .error .missingRoot)
    ∧ ((wClasses.filter (fun p => p.2.isRoot)).head?
        = some ("Root", ⟨true, "", [], [("Item", "1..*")]⟩)
      ∧ generate_config_xml wClasses 5
        = Except.map (fun ls => String.intercalate "\n" (xmlHeader :: ls))
          (build_xml_element wClasses 5 "Root" 0)) :=
  ⟨⟨by decide, (C9_missing_root [("A", ⟨false, "", [], []⟩)] 5).1 (by decide)⟩,
    ⟨by decide, (C9_missing_root wClasses 5).2 "Root"
      ⟨true, "", [], [("Item", "1..*")]⟩ (by decide)⟩⟩

/-! ### The closed-graph invariant established by `parse_xml` (C10) -/

theorem mem_setKey (l : List (String × V)) (k : String) (v : V) (p : String × V)
    (h : p ∈ setKey l k v) : p ∈ l ∨ p = (k, v) := by
  unfold setKey at h
  by_cases hm : keyMem l k
  · rw [if_pos hm] at h
    obtain ⟨q, hq, hfq⟩ := List.mem_map.mp h
    by_cases hqk : q.1 = k
    · rw [if_pos hqk] at hfq
      exact Or.inr hfq.symm
    · rw [if_neg hqk] at hfq
      rw [← hfq]
      exact Or.inl hq
  · rw [if_neg hm] at h
    rcases List.mem_append.mp h with h1 | h1
    · exact Or.inl h1
    · right
      simpa using h1

theorem initClasses_children_nil (ds : List ClassDecl) :
    ∀ p ∈ initClasses ds, p.2.children = [] := by
  have main : ∀ (l : List ClassDecl) (acc : List (String × ClassDef)),
      (∀ p ∈ acc, p.2.children = []) →
      ∀ p ∈ l.foldl (fun cs d =>
        setKey cs d.name ⟨d.isRoot, d.documentation, d.attributes, []⟩) acc,
        p.2.children = [] := by
    intro l
    induction l with
    | nil => intro acc h; exact h
    | cons d t ih =>
      intro acc h
      rw [List.foldl_cons]
      apply ih
      intro p hp
      rcases mem_setKey acc d.name ⟨d.isRoot, d.documentation, d.attributes, []⟩ p hp
        with h1 | h1
      · exact h p h1
      · rw [h1]
  exact main ds [] (fun p hp => absurd hp (List.not_mem_nil p))

theorem keyMem_congr_keys {W : Type} [DecidableEq W] (l₁ : List (String × V)) (l₂ : List (String × W))
    (h : l₁.map Prod.fst = l₂.map Prod.fst) (s : String) : keyMem l₁ s = keyMem l₂ s := by
  rcases h2 : keyMem l₂ s
  · rcases h1 : keyMem l₁ s
    · rfl
    · have := (keyMem_iff_mem_keys l₁ s).mp h1
      rw [h] at this
      rw [(keyMem_iff_mem_keys l₂ s).mpr this] at h2
      exact Bool.noConfusion h2
  · have := (keyMem_iff_mem_keys l₂ s).mp h2
    rw [← h] at this
    exact (keyMem_iff_mem_keys l₁ s).mpr this

theorem addEdge_keys (cs : List (String × ClassDef)) (a : Agg) :
    (addEdge cs a).map Prod.fst = cs.map Prod.fst := by
  unfold addEdge
  by_cases h : (keyMem cs a.source && keyMem cs a.target) = true
  · rw [if_pos h, List.map_map]
    apply List.map_congr_left
    intro p hp
    by_cases hp1 : p.1 = a.target <;> simp [hp1]
  · rw [if_neg h]

theorem foldl_addEdge_closed (aggs : List Agg) : ∀ (cs : List (String × ClassDef)),
    (∀ p ∈ cs, ∀ ch ∈ p.2.children, keyMem cs ch.1 = true) →
    ∀ p ∈ aggs.foldl addEdge cs, ∀ ch ∈ p.2.children,
      keyMem (aggs.foldl addEdge cs) ch.1 = true := by
  induction aggs with
  | nil => intro cs h; exact h
  | cons a t ih =>
    intro cs h
    rw [List.foldl_cons]
    apply ih
    intro p hp ch hch
    have hkm : ∀ s, keyMem (addEdge cs a) s = keyMem cs s := fun s =>
      keyMem_congr_keys (addEdge cs a) cs (addEdge_keys cs a) s
    rw [hkm]
    unfold addEdge at hp
    by_cases hcond : (keyMem cs a.source && keyMem cs a.target) = true
    · rw [if_pos hcond] at hp
      obtain ⟨q, hq, hfq⟩ := List.mem_map.mp hp
      by_cases hqt : q.1 = a.target
      · rw [if_pos hqt] at hfq
        rw [← hfq] at hch
        rcases List.mem_append.mp hch with h1 | h1
        · exact h q hq ch h1
        · have hch2 : ch = (a.source, a.sourceMultiplicity) := by simpa using h1
          obtain ⟨hsrc, htgt⟩ : keyMem cs a.source = true ∧ keyMem cs a.target = true := by
            simpa using hcond
          rw [hch2]
          exact hsrc
      · rw [if_neg hqt] at hfq
        rw [← hfq] at hch
        exact h q hq ch hch
    · rw [if_neg hcond] at hp
      exact h p hp ch hch

theorem gen_no_missing (classes : List (String × ClassDef))
    (hclosed : ClosedGraph classes) (fuel : Nat) (n : String) :
    generate_config_xml classes fuel ≠ .error (.missingClass n) := by
  intro hc
  rcases hf : classes.find? (fun p => p.2.isRoot) with _ | p
  · simp only [generate_config_xml, hf] at hc
    exact GenErr.noConfusion (Except.error.inj hc)
  · simp only [generate_config_xml, hf] at hc
    have hmem : p ∈ classes := List.mem_of_find?_eq_some hf
    have hkm : keyMem classes p.1 = true := by
      rw [keyMem_iff_mem_keys]
      exact List.mem_map.mpr ⟨p, hmem, rfl⟩
    rcases build_closed_cases classes hclosed fuel p.1 0 hkm with he | ⟨out, hok⟩
    · rw [he] at hc
      exact GenErr.noConfusion (Except.error.inj hc)
    · rw [hok] at hc
      exact Except.noConfusion hc

/-- C10: after `parse_xml`, every entry appended to any class's `children`
names a class that is a key of the mapping (both source and target were
checked before appending), so `generate_config_xml` on the parsed graph
never fails with a missing-key (`KeyError`) lookup, whatever the recursion
limit. -/
theorem C10_children_closed (ds : List ClassDecl) (aggs : List Agg) :
    (∀ p ∈ (parse_xml ds aggs).1, ∀ ch ∈ p.2.children,
      keyMem (parse_xml ds aggs).1 ch.1 = true)
    ∧ ∀ fuel n, generate_config_xml (parse_xml ds aggs).1 fuel
        ≠ .error (.missingClass n) := by
  have hinit : ∀ p ∈ initClasses ds, ∀ ch ∈ p.2.children,
      keyMem (initClasses ds) ch.1 = true := by
    intro p hp ch hch
    rw [initClasses_children_nil ds p hp] at hch
    simp at hch
  have hclosed := foldl_addEdge_closed aggs (initClasses ds) hinit
  exact ⟨hclosed, fun fuel n => gen_no_missing _ hclosed fuel n⟩

/-- Witness for C10: a two-class model where the parsed root contains `B`;
the appended child is a key of the mapping. -/
theorem C10_witness :
    ("R", (⟨true, "", [], [("B", "1")]⟩ : ClassDef))
        ∈ (parse_xml [⟨"R", true, "", []⟩, ⟨"B", false, "", []⟩]
            [⟨"B", "R", "1", "1"⟩]).1
    ∧ ("B", "1") ∈ ((⟨true, "", [], [("B", "1")]⟩ : ClassDef)).children
    ∧ keyMem (parse_xml [⟨"R", true, "", []⟩, ⟨"B", false, "", []⟩]
        [⟨"B", "R", "1", "1"⟩]).1 "B" = true :=
  ⟨by decide, by decide,
    (C10_children_closed [⟨"R", true, "", []⟩, ⟨"B", false, "", []⟩]
      [⟨"B", "R", "1", "1"⟩]).1 ("R", ⟨true, "", [], [("B", "1")]⟩) (by decide)
      ("B", "1") (by decide)⟩

/-! ### Structure of the materialized tree (C6) -/

theorem build_eq_render_emitSeq (classes : List (String × ClassDef)) :
    ∀ (fuel : Nat) (name : String) (indent : Nat),
      build_xml_element classes fuel name indent
        = Except.map (List.map renderLine) (emitSeq classes fuel name indent) := by
  intro fuel
  induction fuel with
  | zero =>
    intro name indent
    rfl
  | succ f ih =>
    intro name indent
    rcases hlk : lookupKey classes name with _ | cd
    · rw [build_none classes f name indent hlk, emitSeq_none classes f name indent hlk]
      rfl
    · have hfun : (fun ch : String × String => build_xml_element classes f ch.1 (indent + 1))
          = (fun ch => Except.map (List.map renderLine)
              (emitSeq classes f ch.1 (indent + 1))) := by
        funext ch
        exact ih ch.1 (indent + 1)
      rcases hme : mapExcept (fun ch => emitSeq classes f ch.1 (indent + 1)) cd.children
        with e | blocks
      · have hb : mapExcept (fun ch => build_xml_element classes f ch.1 (indent + 1))
            cd.children = .error e := by
          rw [hfun, mapExcept_map, hme]
          rfl
        rw [build_succ_err classes f name indent cd e hlk hb,
          emitSeq_succ_err classes f name indent cd e hlk hme]
        rfl
      · have hb : mapExcept (fun ch => build_xml_element classes f ch.1 (indent + 1))
            cd.children = .ok (blocks.map (List.map renderLine)) := by
          rw [hfun, mapExcept_map, hme]
          rfl
        rw [build_succ_ok classes f name indent cd _ hlk hb,
          emitSeq_succ_ok classes f name indent cd blocks hlk hme]
        show Except.ok _ = Except.ok _
        congr 1
        simp [List.map_append, List.map_map, List.map_flatten, renderLine, Function.comp]

theorem emitSeq_closed_ok (classes : List (String × ClassDef)) (rank : String → Nat)
    (hclosed : ClosedGraph classes)
    (hrk : ∀ p ∈ classes, ∀ ch ∈ p.2.children, rank ch.1 < rank p.1) :
    ∀ (fuel : Nat) (n : String) (i : Nat), keyMem classes n = true → rank n < fuel →
      ∃ L, emitSeq classes fuel n i = .ok L := by
  intro fuel
  induction fuel with
  | zero =>
    intro n i _ hr
    exact absurd hr (Nat.not_lt_zero _)
  | succ f ih =>
    intro n i hn hr
    have hne : lookupKey classes n ≠ none := by
      intro hc
      rw [lookupKey_eq_none_iff, hn] at hc
      exact Bool.noConfusion hc
    rcases hlk : lookupKey classes n with _ | cd
    · exact absurd hlk hne
    · have hmemcd : (n, cd) ∈ classes := mem_of_lookupKey_eq_some hlk
      have hall : ∀ ch ∈ cd.children, ∃ L, emitSeq classes f ch.1 (i + 1) = .ok L := by
        intro ch hch
        apply ih ch.1 (i + 1) (hclosed (n, cd) hmemcd ch hch)
        exact Nat.lt_of_lt_of_le (hrk (n, cd) hmemcd ch hch) (Nat.lt_succ_iff.mp hr)
      obtain ⟨blocks, hbs⟩ := mapExcept_ok_of_all _ cd.children hall
      exact ⟨_, emitSeq_succ_ok classes f n i cd blocks hlk hbs⟩

theorem emitSeq_counts (classes : List (String × ClassDef)) :
    ∀ (fuel : Nat) (n : String) (i : Nat) (L : List Line),
      emitSeq classes fuel n i = .ok L →
      ∀ d, countOpen L d = numPaths classes fuel n d
        ∧ countClose L d = numPaths classes fuel n d := by
  intro fuel
  induction fuel with
  | zero =>
    intro n i L h d
    exact Except.noConfusion h
  | succ f ih =>
    intro n i L h d
    rcases hlk : lookupKey classes n with _ | cd
    · rw [emitSeq_none classes f n i hlk] at h
      exact Except.noConfusion h
    · rcases hme : mapExcept (fun ch => emitSeq classes f ch.1 (i + 1)) cd.children
        with e | blocks
      · rw [emitSeq_succ_err classes f n i cd e hlk hme] at h
        exact Except.noConfusion h
      · rw [emitSeq_succ_ok classes f n i cd blocks hlk hme] at h
        have hL : L = [Line.openL i n]
            ++ cd.attributes.map (fun a => Line.attrL (i + 1) a.1 a.2)
            ++ blocks.flatten ++ [Line.closeL i n] := (Except.ok.inj h).symm
        subst hL
        obtain ⟨hlen, hpt⟩ := mapExcept_ok_pointwise _ cd.children blocks hme
        have hcn : childNames classes n = cd.children.map Prod.fst := by
          simp only [childNames, hlk]
        have hopen : blocks.map (fun B => countOpen B d)
            = cd.children.map (fun ch => numPaths classes f ch.1 d) := by
          apply List.ext_get (by simp [hlen])
          intro j hj1 hj2
          simp only [List.get_map]
          exact (ih (cd.children.get ⟨j, by simpa using hj2⟩).1 (i + 1) _
            (hpt j (by simpa using hj2) (by simpa using hj1)) d).1
        have hclose : blocks.map (fun B => countClose B d)
            = cd.children.map (fun ch => numPaths classes f ch.1 d) := by
          apply List.ext_get (by simp [hlen])
          intro j hj1 hj2
          simp only [List.get_map]
          exact (ih (cd.children.get ⟨j, by simpa using hj2⟩).1 (i + 1) _
            (hpt j (by simpa using hj2) (by simpa using hj1)) d).2
        have hattrO : (cd.attributes.map (fun a => Line.attrL (i + 1) a.1 a.2)).countP
            (isOpenOf d) = 0 := by
          rw [List.countP_map]
          simp [Function.comp, isOpenOf]
        have hattrC : (cd.attributes.map (fun a => Line.attrL (i + 1) a.1 a.2)).countP
            (isCloseOf d) = 0 := by
          rw [List.countP_map]
          simp [Function.comp, isCloseOf]
        constructor
        · show countOpen _ d = numPaths classes (f + 1) n d
          rw [numPaths, hcn]
          unfold countOpen
          rw [List.countP_append, List.countP_append, List.countP_append,
            List.countP_flatten, hattrO]
          have h1 : List.countP (isOpenOf d) [Line.openL i n]
              = if n = d then 1 else 0 := by
            simp [List.countP_cons, isOpenOf]
          have h2 : List.countP (isOpenOf d) [Line.closeL i n] = 0 := by
            simp [List.countP_cons, isOpenOf]
          rw [h1, h2]
          have h3 : blocks.map (List.countP (isOpenOf d))
              = cd.children.map (fun ch => numPaths classes f ch.1 d) := hopen
          rw [h3, List.map_map]
          have h5 : List.map ((fun ch => numPaths classes f ch d) ∘ Prod.fst) cd.children
              = List.map (fun ch => numPaths classes f ch.1 d) cd.children := rfl
          rw [h5]
          omega
        · show countClose _ d = numPaths classes (f + 1) n d
          rw [numPaths, hcn]
          unfold countClose
          rw [List.countP_append, List.countP_append, List.countP_append,
            List.countP_flatten, hattrC]
          have h1 : List.countP (isCloseOf d) [Line.openL i n] = 0 := by
            simp [List.countP_cons, isCloseOf]
          have h2 : List.countP (isCloseOf d) [Line.closeL i n]
              = if n = d then 1 else 0 := by
            simp [List.countP_cons, isCloseOf]
          rw [h1, h2]
          have h3 : blocks.map (List.countP (isCloseOf d))
              = cd.children.map (fun ch => numPaths classes f ch.1 d) := hclose
          rw [h3, List.map_map]
          have h5 : List.map ((fun ch => numPaths classes f ch d) ∘ Prod.fst) cd.children
              = List.map (fun ch => numPaths classes f ch.1 d) cd.children := rfl
          rw [h5]
          omega

theorem numPaths_pos_of_reach (classes : List (String × ClassDef)) (rank : String → Nat)
    (hrk : ∀ p ∈ classes, ∀ ch ∈ p.2.children, rank ch.1 < rank p.1)
    (c d : String) (h : Reach classes c d) :
    ∀ fuel, rank c < fuel → 1 ≤ numPaths classes fuel c d := by
  induction h using Relation.ReflTransGen.head_induction_on with
  | refl =>
    intro fuel hf
    rcases fuel with _ | f
    · exact absurd hf (Nat.not_lt_zero _)
    · rw [numPaths]
      simp
  | head hstep hrest ih =>
    rename_i a b
    intro fuel hf
    obtain ⟨cd, hlk, hmem⟩ := hstep
    rcases fuel with _ | f
    · exact absurd hf (Nat.not_lt_zero _)
    · rw [numPaths]
      have hcn : childNames classes a = cd.children.map Prod.fst := by
        simp only [childNames, hlk]
      have hbmem : b ∈ childNames classes a := by
        rw [hcn]
        exact hmem
      obtain ⟨ch, hch, hchname⟩ := List.mem_map.mp hmem
      have hrb : rank b < rank a := by
        rw [← hchname]
        exact hrk (a, cd) (mem_of_lookupKey_eq_some hlk) ch hch
      have hb1 : 1 ≤ numPaths classes f b d :=
        ih f (Nat.lt_of_lt_of_le hrb (Nat.lt_succ_iff.mp hf))
      have hmm : numPaths classes f b d
          ∈ (childNames classes a).map (fun x => numPaths classes f x d) :=
        List.mem_map.mpr ⟨b, hbmem, rfl⟩
      have hsum : numPaths classes f b d
          ≤ ((childNames classes a).map (fun x => numPaths classes f x d)).sum :=
        List.single_le_sum (fun x _ => Nat.zero_le x) _ hmm
      exact Nat.le_trans hb1 (Nat.le_trans hsum (Nat.le_add_left _ _))

theorem numPaths_zero_of_not_reach (classes : List (String × ClassDef)) :
    ∀ (fuel : Nat) (c d : String), ¬ Reach classes c d →
      numPaths classes fuel c d = 0 := by
  intro fuel
  induction fuel with
  | zero =>
    intro c d _
    rfl
  | succ f ih =>
    intro c d h
    rw [numPaths]
    have hcd : c ≠ d := fun hc => h (hc ▸ Relation.ReflTransGen.refl)
    rw [if_neg hcd]
    have hsum : ((childNames classes c).map (fun x => numPaths classes f x d)).sum = 0 := by
      apply List.sum_eq_zero
      intro x hx
      obtain ⟨m, hm, hmx⟩ := List.mem_map.mp hx
      have hstep : ChildStep classes c m := by
        unfold childNames at hm
        rcases hlk : lookupKey classes c with _ | cd
        · rw [hlk] at hm
          simp at hm
        · rw [hlk] at hm
          exact ⟨cd, hlk, hm⟩
      have : ¬ Reach classes m d := fun hr =>
        h (Relation.ReflTransGen.head hstep hr)
      rw [← hmx]
      exact ih m d this
    rw [hsum]

theorem emitSeq_block_structure (classes : List (String × ClassDef)) (c : String)
    (cd : ClassDef) (i f : Nat) (L2 : List Line)
    (hlk : lookupKey classes c = some cd) (hE : emitSeq classes (f + 1) c i = .ok L2) :
    ∃ blocks, mapExcept (fun ch => emitSeq classes f ch.1 (i + 1)) cd.children = .ok blocks
      ∧ L2 = [Line.openL i c] ++ cd.attributes.map (fun a => Line.attrL (i + 1) a.1 a.2)
          ++ blocks.flatten ++ [Line.closeL i c] := by
  rcases hme : mapExcept (fun ch => emitSeq classes f ch.1 (i + 1)) cd.children
    with e | blocks
  · rw [emitSeq_succ_err classes f c i cd e hlk hme] at hE
    exact Except.noConfusion hE
  · rw [emitSeq_succ_ok classes f c i cd blocks hlk hme] at hE
    exact ⟨blocks, hme, (Except.ok.inj hE).symm⟩

/-- C6: on a model graph with exactly one root class and an acyclic
containment relation (witnessed by a rank function decreasing from parent
to child), `generate_config_xml` terminates — at any recursion limit above
the root's rank it returns output — and the output renders a line sequence
`L` in which, for every class `d`, the number of opening tags of `d`, the
number of closing tags of `d` and the number of containment paths from the
root to `d` all coincide (so exactly one matching pair per reachable class
per containment path, none for unreachable classes); every emitted class
block is an opening tag, one line per attribute at one deeper indentation,
the child blocks at one deeper indentation, then the matching closing
tag. -/
theorem C6_materialize_tree (classes : List (String × ClassDef)) (rank : String → Nat)
    (R : Nat) (rname : String) (rcd : ClassDef)
    (hclosed : ClosedGraph classes)
    (hrk : ∀ p ∈ classes, ∀ ch ∈ p.2.children, rank ch.1 < rank p.1)
    (hroot : classes.filter (fun p => p.2.isRoot) = [(rname, rcd)])
    (hR : rank rname < R) :
    ∃ L, emitSeq classes R rname 0 = .ok L
      ∧ generate_config_xml classes R
          = .ok (String.intercalate "\n" (xmlHeader :: L.map renderLine))
      ∧ (∀ d, countOpen L d = numPaths classes R rname d
          ∧ countClose L d = numPaths classes R rname d)
      ∧ (∀ d, Reach classes rname d → 1 ≤ numPaths classes R rname d)
      ∧ (∀ d, ¬ Reach classes rname d → numPaths classes R rname d = 0)
      ∧ (∀ c cd i f L2, lookupKey classes c = some cd →
          emitSeq classes (f + 1) c i = .ok L2 →
          ∃ blocks,
            mapExcept (fun ch => emitSeq classes f ch.1 (i + 1)) cd.children = .ok blocks
            ∧ L2 = [Line.openL i c]
                ++ cd.attributes.map (fun a => Line.attrL (i + 1) a.1 a.2)
                ++ blocks.flatten ++ [Line.closeL i c]) := by
  have hmemf : (rname, rcd) ∈ classes.filter (fun p => p.2.isRoot) := by
    rw [hroot]
    exact List.mem_singleton.mpr rfl
  have hmem : (rname, rcd) ∈ classes := List.mem_of_mem_filter hmemf
  have hkm : keyMem classes rname = true := by
    rw [keyMem_iff_mem_keys]
    exact List.mem_map.mpr ⟨(rname, rcd), hmem, rfl⟩
  obtain ⟨L, hL⟩ := emitSeq_closed_ok classes rank hclosed hrk R rname 0 hkm hR
  have hfind : classes.find? (fun p => p.2.isRoot) = some (rname, rcd) := by
    rw [find?_eq_head?_filter, hroot]
    rfl
  refine ⟨L, hL, ?_, ?_, ?_, ?_, ?_⟩
  · have heq : generate_config_xml classes R
        = Except.map (fun ls => String.intercalate "\n" (xmlHeader :: ls))
          (build_xml_element classes R rname 0) := by
      rw [generate_config_xml, hfind]
    rw [heq, build_eq_render_emitSeq classes R rname 0, hL]
    rfl
  · intro d
    exact emitSeq_counts classes R rname 0 L hL d
  · intro d hreach
    exact numPaths_pos_of_reach classes rank hrk rname d hreach R hR
  · intro d hnreach
    exact numPaths_zero_of_not_reach classes R rname d hnreach
  · intro c cd i f L2 hlk hE
    exact emitSeq_block_structure classes c cd i f L2 hlk hE

/-- Witness for C6 on the spec's worked example (`Root` containing `Item`),
with rank 1 for the root and 0 for the child, recursion limit 2. -/
theorem C6_witness :
    ((∀ p ∈ wClasses, ∀ ch ∈ p.2.children, keyMem wClasses ch.1 = true)
      ∧ (∀ p ∈ wClasses, ∀ ch ∈ p.2.children,
          (if ch.1 = "Root" then 1 else 0) < (if p.1 = "Root" then 1 else 0))
      ∧ wClasses.filter (fun p => p.2.isRoot)
          = [("Root", ⟨true, "", [], [("Item", "1..*")]⟩)]
      ∧ (if "Root" = "Root" then 1 else 0) < 2)
    ∧ ∃ L, emitSeq wClasses 2 "Root" 0 = .ok L
      ∧ generate_config_xml wClasses 2
          = .ok (String.intercalate "\n" (xmlHeader :: L.map renderLine))
      ∧ (∀ d, countOpen L d = numPaths wClasses 2 "Root" d
          ∧ countClose L d = numPaths wClasses 2 "Root" d)
      ∧ (∀ d, Reach wClasses "Root" d → 1 ≤ numPaths wClasses 2 "Root" d)
      ∧ (∀ d, ¬ Reach wClasses "Root" d → numPaths wClasses 2 "Root" d = 0)
      ∧ (∀ c cd i f L2, lookupKey wClasses c = some cd →
          emitSeq wClasses (f + 1) c i = .ok L2 →
          ∃ blocks,
            mapExcept (fun ch => emitSeq wClasses f ch.1 (i + 1)) cd.children = .ok blocks
            ∧ L2 = [Line.openL i c]
                ++ cd.attributes.map (fun a => Line.attrL (i + 1) a.1 a.2)
                ++ blocks.flatten ++ [Line.closeL i c]) := by
  have hclosed : ∀ p ∈ wClasses, ∀ ch ∈ p.2.children, keyMem wClasses ch.1 = true := by
    decide
  have hrk : ∀ p ∈ wClasses, ∀ ch ∈ p.2.children,
      (fun s => if s = "Root" then 1 else 0) ch.1
        < (fun s => if s = "Root" then 1 else 0) p.1 := by
    decide
  exact ⟨⟨hclosed, hrk, by decide, by decide⟩,
    C6_materialize_tree wClasses (fun s => if s = "Root" then 1 else 0) 2 "Root"
      ⟨true, "", [], [("Item", "1..*")]⟩ hclosed hrk (by decide) (by decide)⟩

end MainPy
